import Mathlib

/-!
Verification of the MultiMediaWorkerTS task-orchestration core.

This file gives a shallow embedding, in Lean, of the plan-validation,
command-execution, task-orchestration and revision-composition code of the
repository, and proves (or refutes) the specification claims about it.

The embedding conventions:

* JavaScript dynamic values (the untrusted plan structures, session records)
  are modelled by the inductive `JValue`; `undefined` is a distinct value.
* Node `path.resolve` / `path.relative` (posix) are modelled on character
  lists: a path is split on `'/'`, empty components are dropped, `"."` and
  `".."` are normalized; `resolvePath` takes the current working directory
  explicitly since `path.resolve` of a relative path depends on it.
* Effects are modelled by explicit oracles: the subprocess behaviour of
  `spawnProcess` is a function from step index to a spawn outcome, the
  filesystem is a function from absolute path to an optional stat record,
  and the session store is a function from id value to an optional record.
* Machine-level timestamps (`new Date().toISOString()`) carry no information
  used by any claim; they are modelled by an abstract `Nat` clock threaded
  through the phase tracker.
-/

namespace MMW

/-! ## Character-level string helpers (JavaScript semantics) -/

/-- The whitespace characters trimmed by JavaScript `String.prototype.trim`
(restricted to the ASCII ones that can occur in our inputs). -/
def jsIsSpace (c : Char) : Bool :=
  c = ' ' || c = '\t' || c = '\n' || c = '\r'

/-- Drop leading whitespace from a character list. -/
def dropLeadingSpace (cs : List Char) : List Char :=
  cs.dropWhile jsIsSpace

/-- JavaScript `String.prototype.trim` on the underlying character list. -/
def jsTrimChars (cs : List Char) : List Char :=
  (dropLeadingSpace ((dropLeadingSpace cs.reverse).reverse))

/-- JavaScript `String.prototype.trim`. -/
def jsTrim (s : String) : String :=
  ⟨jsTrimChars s.data⟩

/-- JavaScript `String.prototype.startsWith`. -/
def jsStartsWith (s pre : String) : Bool :=
  pre.data.isPrefixOf s.data

/-- JavaScript `String.prototype.slice(0, n)` (used for `task.slice(0, 120)`). -/
def jsSlice0 (s : String) (n : Nat) : String :=
  ⟨s.data.take n⟩

/-! ## Node posix path model -/

/-- Split a character list on `'/'`; the accumulator holds the current
segment reversed. Mirrors the segment scanning done by Node's
`normalizeString`. -/
def splitSlashAux : List Char → List Char → List (List Char)
  | [], cur => [cur.reverse]
  | c :: rest, cur =>
    if c = '/' then cur.reverse :: splitSlashAux rest []
    else splitSlashAux rest (c :: cur)

/-- The non-empty `'/'`-separated segments of a path. -/
def splitSlash (cs : List Char) : List (List Char) :=
  (splitSlashAux cs []).filter (fun seg => seg ≠ [])

/-- Join segments with `'/'` separators. -/
def joinSlash : List (List Char) → List Char
  | [] => []
  | [x] => x
  | x :: y :: ys => x ++ '/' :: joinSlash (y :: ys)

/-- Normalization of path segments: `"."` is dropped and `".."` pops the
last retained segment (or is dropped at the root, as in Node's resolution
of absolute paths). The accumulator holds retained segments reversed. -/
def normSegsAux : List (List Char) → List (List Char) → List (List Char)
  | acc, [] => acc.reverse
  | acc, seg :: rest =>
    if seg = ['.'] then normSegsAux acc rest
    else if seg = ['.', '.'] then
      match acc with
      | [] => normSegsAux [] rest
      | _ :: acc' => normSegsAux acc' rest
    else normSegsAux (seg :: acc) rest

/-- Whether a character list starts with `'/'` (posix absoluteness). -/
def isAbsoluteChars : List Char → Bool
  | c :: _ => c = '/'
  | [] => false

/-- Segments of the absolute path a character list resolves to, given the
segments of the current working directory. -/
def resolveSegs (cwdSegs : List (List Char)) (cs : List Char) : List (List Char) :=
  if isAbsoluteChars cs then normSegsAux [] (splitSlash cs)
  else normSegsAux [] (cwdSegs ++ splitSlash cs)

/-- Render an absolute path from its segments (`[]` renders as `"/"`). -/
def joinAbs (segs : List (List Char)) : String :=
  ⟨'/' :: joinSlash segs⟩

/-- Node posix `path.resolve(p)` with the current working directory passed
explicitly (`cwd` is an absolute path). -/
def resolvePath (cwd p : String) : String :=
  joinAbs (resolveSegs (normSegsAux [] (splitSlash cwd.data)) p.data)

/-- Node posix `path.isAbsolute`. -/
def isAbsolutePath (s : String) : Bool :=
  isAbsoluteChars s.data

/-- Drop the longest shared leading run of two segment lists, returning the
two remainders (the core of Node `path.relative`). -/
def dropSharedStart : List (List Char) → List (List Char) →
    List (List Char) × List (List Char)
  | a :: as, b :: bs =>
    if a = b then dropSharedStart as bs else (a :: as, b :: bs)
  | as, bs => (as, bs)

/-- Node posix `path.relative(fromP, toP)`; both arguments are resolved
against `cwd` first, exactly as Node does. -/
def relativePath (cwd fromP toP : String) : String :=
  let f := resolveSegs (normSegsAux [] (splitSlash cwd.data)) fromP.data
  let t := resolveSegs (normSegsAux [] (splitSlash cwd.data)) toP.data
  let (f', t') := dropSharedStart f t
  ⟨joinSlash (List.replicate f'.length ['.', '.'] ++ t')⟩

/-- Node posix `path.dirname` restricted to resolved absolute paths. -/
def dirnamePath (p : String) : String :=
  let segs := splitSlash p.data
  joinAbs (segs.take (segs.length - 1))

/-- Node posix `path.basename` restricted to resolved absolute paths. -/
def basenamePath (p : String) : String :=
  match (splitSlash p.data).getLast? with
  | some seg => ⟨seg⟩
  | none => ""

/-- Index (from the right) after the last `'.'` of a character list, if a
`'.'` occurs in a non-leading position. Helper for `extnamePath`. -/
def lastDotSplit (cs : List Char) : Option (List Char) :=
  match cs with
  | [] => none
  | c :: rest =>
    match lastDotSplit rest with
    | some suffix => some suffix
    | none => if c = '.' ∧ rest ≠ [] then some (c :: rest) else none

/-- Node posix `path.extname` on a resolved path: the suffix of the basename
from its last non-leading dot (`"."` and `".."` have no extension). -/
def extnamePath (p : String) : String :=
  let b := basenamePath p
  if b = "." ∨ b = ".." then ""
  else
    match b.data with
    | [] => ""
    | _ :: rest =>
      match lastDotSplit rest with
      | some suffix => ⟨suffix⟩
      | none => ""

/-! ## Dynamic JavaScript values

The planner output and the persisted session records are untyped
(`unknown` / `Record<string, any>`); `JValue` models the JSON-like values
that appear there, with `undef` for JavaScript `undefined`. -/

inductive JValue : Type where
  | undef : JValue
  | null : JValue
  | bool (b : Bool) : JValue
  | num (n : Int) : JValue
  | str (s : String) : JValue
  | arr (items : List JValue) : JValue
  | obj (fields : List (String × JValue)) : JValue
deriving Inhabited

namespace JValue

/-- JavaScript SameValueZero, the equality used by `Set` membership.
Primitives compare by value; two array or object values compare by
reference, and every record or id fetched from the session store is a
freshly parsed object, so distinct fetches are never reference-equal. -/
def sameValueZero : JValue → JValue → Bool
  | undef, undef => true
  | null, null => true
  | bool a, bool b => a == b
  | num a, num b => a == b
  | str a, str b => a == b
  | _, _ => false

/-- JavaScript property access `j[key]`: `none` means the key is missing
(which behaves as `undefined` wherever it is only inspected). Named
properties of arrays and primitives read as missing. -/
def getField : JValue → String → Option JValue
  | obj fields, key => fields.lookup key
  | _, _ => none

/-- Property access that collapses a missing key to `undefined`, matching
expression position (`record.field`). -/
def getFieldD (j : JValue) (key : String) : JValue :=
  (j.getField key).getD undef

/-- JavaScript truthiness. -/
def jsTruthy : JValue → Bool
  | undef => false
  | null => false
  | bool b => b
  | num n => n ≠ 0
  | str s => s ≠ ""
  | arr _ => true
  | obj _ => true

/-- `typeof j === 'object'` combined with a truthiness guard, i.e. the
validator's `value && typeof value === 'object'` test (note that arrays are
objects and `null` is excluded by the truthiness guard). -/
def isObjectLike : JValue → Bool
  | obj _ => true
  | arr _ => true
  | _ => false

/-- `typeof j === 'string'` together with the string itself. -/
def asString : JValue → Option String
  | str s => some s
  | _ => none

/-- `Array.isArray` together with the elements. -/
def asArray : JValue → Option (List JValue)
  | arr items => some items
  | _ => none

/-- JavaScript string coercion (`String(j)` / template literals), used only
to render error messages. Arrays join their elements with `","`; plain
objects render as `"[object Object]"`. -/
def jsDisplay : JValue → String
  | undef => "undefined"
  | null => "null"
  | bool b => if b then "true" else "false"
  | num n => toString n
  | str s => s
  | arr items => String.intercalate "," (items.attach.map fun ⟨j, _⟩ => jsDisplay j)
  | obj _ => "[object Object]"

end JValue

/-! ## ToolRegistry (`src/backend/src/agent/registry/ToolRegistry.ts`,
`src/backend/src/agent/config/constants.ts`) -/

structure ToolDefinition where
  title : String
  description : String
deriving Repr, DecidableEq

/-- `DEFAULT_TOOL_DEFINITIONS` from `constants.ts`. -/
def DEFAULT_TOOL_DEFINITIONS : List (String × ToolDefinition) :=
  [("ffmpeg", ⟨"FFmpeg", "Handles audio and video conversions and processing."⟩),
   ("magick", ⟨"ImageMagick", "Performs rich image conversions, resizing, and effects."⟩),
   ("exiftool", ⟨"ExifTool", "Reads and edits embedded metadata for media files."⟩),
   ("yt-dlp", ⟨"yt-dlp", "Downloads media from supported online services."⟩),
   ("none", ⟨"No command", "Choose when no CLI tool is appropriate for the task."⟩)]

/-- The registry holds a string-keyed map of tool definitions. -/
structure ToolRegistry where
  definitions : List (String × ToolDefinition)
deriving Repr, DecidableEq

namespace ToolRegistry

/-- `new ToolRegistry(overrides)` spreads the defaults under the overrides. -/
def create (overrides : List (String × ToolDefinition)) : ToolRegistry :=
  ⟨(DEFAULT_TOOL_DEFINITIONS.map fun (k, v) =>
      (k, ((overrides.lookup k).getD v))) ++
    overrides.filter fun (k, _) => (DEFAULT_TOOL_DEFINITIONS.lookup k).isNone⟩

/-- `ToolRegistry.createDefault()`. -/
def createDefault : ToolRegistry := create []

/-- `hasCommand`: `Boolean(this.definitions[command])`. -/
def hasCommand (r : ToolRegistry) (command : String) : Bool :=
  (r.definitions.lookup command).isSome

/-- `listCommandIds`. -/
def listCommandIds (r : ToolRegistry) : List String :=
  r.definitions.map Prod.fst

/-- `listExecutableCommandIds`. -/
def listExecutableCommandIds (r : ToolRegistry) : List String :=
  r.listCommandIds.filter (fun id => id ≠ "none")

end ToolRegistry

/-! ## Plan data model (`src/backend/src/agent/shared/types.ts`) -/

structure CommandOutputPlan where
  path : String
  description : String
deriving Repr, DecidableEq

structure CommandStepPlan where
  command : String
  arguments : List String
  reasoning : String
  outputs : List CommandOutputPlan
  id : Option String
  title : Option String
  note : Option String
deriving Repr, DecidableEq

structure CommandPlan where
  overview : String
  followUp : String
  steps : List CommandStepPlan
deriving Repr, DecidableEq

/-- Re-render a validated output as the dynamic value the validator would
receive when the validated plan is fed back in. -/
def CommandOutputPlan.toJValue (o : CommandOutputPlan) : JValue :=
  .obj [("path", .str o.path), ("description", .str o.description)]

/-- Re-render a validated step as a dynamic value; optional fields that were
normalized to `undefined` are omitted. -/
def CommandStepPlan.toJValue (s : CommandStepPlan) : JValue :=
  .obj ([("command", .str s.command),
        ("arguments", .arr (s.arguments.map JValue.str)),
        ("reasoning", .str s.reasoning),
        ("outputs", .arr (s.outputs.map CommandOutputPlan.toJValue))] ++
        (match s.id with | some v => [("id", JValue.str v)] | none => []) ++
        (match s.title with | some v => [("title", JValue.str v)] | none => []) ++
        (match s.note with | some v => [("note", JValue.str v)] | none => []))

/-- Re-render a validated plan as a dynamic value. -/
def CommandPlan.toJValue (p : CommandPlan) : JValue :=
  .obj [("overview", .str p.overview),
        ("followUp", .str p.followUp),
        ("steps", .arr (p.steps.map CommandStepPlan.toJValue))]

/-! ## PlanValidator (`src/unnamed/part_003`, class `PlanValidator`) -/

namespace PlanValidator

/-- `validateOutput(rawOutput, stepIndex, outputIndex, normalizedOutputDir)`.
`cwd` is the process working directory consulted by `path.resolve`. -/
def validateOutput (cwd : String) (rawOutput : JValue) (stepIndex outputIndex : Nat)
    (normalizedOutputDir : String) : Except String CommandOutputPlan :=
  if ¬ rawOutput.isObjectLike then
    .error s!"Step ({stepIndex + 1}) outputs[{outputIndex}] is invalid."
  else
    let rawPath :=
      match (rawOutput.getFieldD "path").asString with
      | some s => jsTrim s
      | none => ""
    if rawPath = "" then
      .error s!"Step ({stepIndex + 1}) output path is missing."
    else
      let absolutePath := resolvePath cwd rawPath
      let relative := relativePath cwd normalizedOutputDir absolutePath
      if jsStartsWith relative ".." || isAbsolutePath relative then
        let shown := (rawOutput.getFieldD "path").jsDisplay
        .error s!"Output path lies outside of the output directory: {shown}"
      else
        .ok { path := absolutePath,
              description := ((rawOutput.getFieldD "description").asString).getD "" }

/-- Validate the outputs of one step in order, threading the output index. -/
def validateOutputs (cwd : String) (stepIndex : Nat) (normalizedOutputDir : String) :
    Nat → List JValue → Except String (List CommandOutputPlan)
  | _, [] => .ok []
  | outputIndex, item :: rest =>
    match validateOutput cwd item stepIndex outputIndex normalizedOutputDir with
    | .error e => .error e
    | .ok o =>
      match validateOutputs cwd stepIndex normalizedOutputDir (outputIndex + 1) rest with
      | .error e => .error e
      | .ok os => .ok (o :: os)

/-- Normalization of the optional `id` / `title` / `note` fields:
a string that is non-empty after trimming is kept trimmed, everything else
becomes `undefined`. -/
def normalizeOptionalField (v : JValue) : Option String :=
  match v.asString with
  | some s => if jsTrim s ≠ "" then some (jsTrim s) else none
  | none => none

/-- `validateStep(rawStep, index, normalizedOutputDir)`. -/
def validateStep (registry : ToolRegistry) (cwd : String) (rawStep : JValue)
    (index : Nat) (normalizedOutputDir : String) : Except String CommandStepPlan :=
  if ¬ rawStep.isObjectLike then
    .error s!"Command step ({index + 1}) is invalid."
  else
    let commandV := rawStep.getFieldD "command"
    match commandV.asString with
    | none => .error s!"Unknown command: {commandV.jsDisplay}"
    | some c =>
      if ¬ registry.hasCommand c then .error s!"Unknown command: {commandV.jsDisplay}"
      else
        match (rawStep.getFieldD "arguments").asArray with
        | none => .error s!"Step ({index + 1}) arguments must be an array of strings."
        | some items =>
          if ¬ items.all (fun a => a.asString.isSome) then
            .error s!"Step ({index + 1}) arguments must be an array of strings."
          else
            match validateOutputs cwd index normalizedOutputDir 0
                (((rawStep.getFieldD "outputs").asArray).getD []) with
            | .error e => .error e
            | .ok normalizedOutputs =>
              .ok { command := c
                    arguments := items.filterMap JValue.asString
                    reasoning := ((rawStep.getFieldD "reasoning").asString).getD ""
                    outputs := normalizedOutputs
                    id := normalizeOptionalField (rawStep.getFieldD "id")
                    title := normalizeOptionalField (rawStep.getFieldD "title")
                    note := normalizeOptionalField (rawStep.getFieldD "note") }

/-- Validate the steps in order, threading the step index. -/
def validateSteps (registry : ToolRegistry) (cwd : String) (normalizedOutputDir : String) :
    Nat → List JValue → Except String (List CommandStepPlan)
  | _, [] => .ok []
  | index, rawStep :: rest =>
    match validateStep registry cwd rawStep index normalizedOutputDir with
    | .error e => .error e
    | .ok s =>
      match validateSteps registry cwd normalizedOutputDir (index + 1) rest with
      | .error e => .error e
      | .ok ss => .ok (s :: ss)

/-- `validate(plan, outputDir)`: the entry point of the validator. -/
def validate (registry : ToolRegistry) (cwd : String) (plan : JValue)
    (outputDir : String) : Except String CommandPlan :=
  if ¬ plan.isObjectLike then
    .error "Command plan is invalid."
  else if jsTrim outputDir = "" then
    .error "Output directory is not specified."
  else
    match (plan.getFieldD "steps").asArray with
    | none => .error "Command steps are missing."
    | some items =>
      if items.length = 0 then .error "Command steps are missing."
      else
        match validateSteps registry cwd (resolvePath cwd outputDir) 0 items with
        | .error e => .error e
        | .ok steps =>
          .ok { overview := ((plan.getFieldD "overview").asString).getD ""
                followUp := ((plan.getFieldD "followUp").asString).getD ""
                steps := steps }

end PlanValidator

/-! ## CommandExecutor
(`src/backend/src/agent/execution/CommandExecutor.ts`) -/

inductive StepStatus : Type where
  | executed : StepStatus
  | skipped : StepStatus
deriving Repr, DecidableEq

inductive CommandStepSkipReason : Type where
  | dry_run : CommandStepSkipReason
  | previous_step_failed : CommandStepSkipReason
  | no_op_command : CommandStepSkipReason
deriving Repr, DecidableEq

structure CommandStepResult where
  status : StepStatus
  command : String
  arguments : List String
  reasoning : String
  exitCode : Option Int
  timedOut : Bool
  stdout : String
  stderr : String
  skipReason : Option CommandStepSkipReason
deriving Repr, DecidableEq

structure DescribedOutput where
  path : String
  description : String
  absolutePath : String
  exists' : Bool
  size : Option Int
  publicPath : Option String
deriving Repr, DecidableEq

structure CommandExecutionResult where
  exitCode : Option Int
  timedOut : Bool
  stdout : String
  stderr : String
  resolvedOutputs : List DescribedOutput
  dryRun : Bool
  steps : List CommandStepResult
deriving Repr, DecidableEq

/-- What one `close` event of a spawned child process reports: the exit code
(`none` when the process was killed by a signal), the accumulated stdio
text, and whether the kill timer fired. Subprocess behaviour is external;
an execution run is parametrized by an oracle`spawnOracle : Nat → Except
String SpawnOutcome` giving, per step index, either this outcome or the
`error` event that makes `spawnProcess` reject. -/
structure SpawnOutcome where
  code : Option Int
  stdout : String
  stderr : String
  timedOut : Bool
deriving Repr, DecidableEq

/-- `spawnProcess` resolves with `exitCode: timedOut ? null : code`. -/
def spawnExitCode (o : SpawnOutcome) : Option Int :=
  if o.timedOut then none else o.code

/-- A filesystem stat record; the filesystem is an oracle
`String → Option FileStat` (`none` = path does not exist). -/
structure FileStat where
  isFile : Bool
  size : Int
deriving Repr, DecidableEq

/-- The subset of `CommandExecutionOptions` that determines the returned
result (the callbacks only observe progress). -/
structure ExecOptions where
  cwd : String := "/"
  publicRoot : Option String := none
  dryRun : Option Bool := none
deriving Repr, DecidableEq

namespace CommandExecutor

/-- `resolveSkipReason({dryRun, encounteredFailure, command})`. -/
def resolveSkipReason (dryRun encounteredFailure : Bool) (command : String) :
    Option CommandStepSkipReason :=
  if dryRun then some .dry_run
  else if encounteredFailure then some .previous_step_failed
  else if command = "none" then some .no_op_command
  else none

/-- `createSkippedResult(step, skipReason)`. -/
def createSkippedResult (step : CommandStepPlan) (skipReason : CommandStepSkipReason) :
    CommandStepResult :=
  { status := .skipped
    command := step.command
    arguments := step.arguments
    reasoning := step.reasoning
    exitCode := none
    timedOut := false
    stdout := ""
    stderr := ""
    skipReason := some skipReason }

/-- `createExecutedResult(step, exitCode, stdout, stderr, timedOut)`
(no `skipReason` property on executed results). -/
def createExecutedResult (step : CommandStepPlan) (exitCode : Option Int)
    (stdout stderr : String) (timedOut : Bool) : CommandStepResult :=
  { status := .executed
    command := step.command
    arguments := step.arguments
    reasoning := step.reasoning
    exitCode := exitCode
    timedOut := timedOut
    stdout := stdout
    stderr := stderr
    skipReason := none }

/-- `appendSectionOutput(existing, index, step, content)`. -/
def appendSectionOutput (existing : String) (index : Nat) (step : CommandStepPlan)
    (content : String) : String :=
  if content = "" then existing
  else
    let commandLine := jsTrim (String.intercalate " " (step.command :: step.arguments))
    let header := jsTrim s!"[step {index + 1}] {commandLine}"
    let block : String := ⟨(header.data ++ '\n' :: content.data).reverse.dropWhile jsIsSpace |>.reverse⟩
    if existing = "" then block
    else existing ++ "\n" ++ block

/-- The mutable locals of the main loop of `execute`. -/
structure LoopState where
  stepResults : List CommandStepResult
  aggregatedStdout : String
  aggregatedStderr : String
  lastExitCode : Option Int
  anyTimedOut : Bool
  encounteredFailure : Bool
deriving Repr, DecidableEq

/-- The initial loop state. -/
def initialState : LoopState :=
  { stepResults := []
    aggregatedStdout := ""
    aggregatedStderr := ""
    lastExitCode := none
    anyTimedOut := false
    encounteredFailure := false }

/-- One iteration of the main loop of `execute` for an executed step. -/
def recordExecuted (st : LoopState) (index : Nat) (step : CommandStepPlan)
    (o : SpawnOutcome) : LoopState :=
  let exitCode := spawnExitCode o
  { stepResults := st.stepResults ++ [createExecutedResult step exitCode o.stdout o.stderr o.timedOut]
    aggregatedStdout := appendSectionOutput st.aggregatedStdout index step o.stdout
    aggregatedStderr := appendSectionOutput st.aggregatedStderr index step o.stderr
    lastExitCode := exitCode
    anyTimedOut := st.anyTimedOut || o.timedOut
    encounteredFailure :=
      st.encounteredFailure || (o.timedOut || (exitCode ≠ none && exitCode ≠ some 0)) }

/-- The main loop of `execute` over the remaining steps; `index` is the
position of the first remaining step. A rejection of `spawnProcess`
(`error` event, e.g. command not found) rejects the whole run. -/
def runSteps (spawnOracle : Nat → Except String SpawnOutcome) (dryRun : Bool) :
    Nat → List CommandStepPlan → LoopState → Except String LoopState
  | _, [], st => .ok st
  | index, step :: rest, st =>
    match resolveSkipReason dryRun st.encounteredFailure step.command with
    | some reason =>
      runSteps spawnOracle dryRun (index + 1) rest
        { st with stepResults := st.stepResults ++ [createSkippedResult step reason] }
    | none =>
      match spawnOracle index with
      | .error e => .error e
      | .ok o => runSteps spawnOracle dryRun (index + 1) rest (recordExecuted st index step o)

/-- The post-pass of `execute`: when a failure was encountered, retroactively
mark reason-less skipped steps with `previous_step_failed`. -/
def applyRetroSkipReasons (encounteredFailure : Bool)
    (results : List CommandStepResult) : List CommandStepResult :=
  if encounteredFailure then
    results.map fun r =>
      if r.status = .skipped ∧ r.skipReason = none then
        { r with skipReason := some .previous_step_failed }
      else r
  else results

/-- `collectOutputs(steps)`. -/
def collectOutputs (steps : List CommandStepPlan) : List CommandOutputPlan :=
  steps.flatMap fun step => step.outputs

/-- `describeOutputs(outputs, publicRoot)` over the filesystem oracle. -/
def describeOutputs (fsys : String → Option FileStat) (cwd : String)
    (outputs : List CommandOutputPlan) (publicRoot : Option String) :
    List DescribedOutput :=
  outputs.map fun item =>
    let absolutePath := resolvePath cwd item.path
    match fsys absolutePath with
    | none =>
      { path := item.path, description := item.description,
        absolutePath := absolutePath, exists' := false, size := none, publicPath := none }
    | some st =>
      let publicPath :=
        match publicRoot with
        | none => none
        | some root =>
          let rel := relativePath cwd root absolutePath
          if ¬ jsStartsWith rel ".." then some rel else none
      { path := item.path, description := item.description,
        absolutePath := absolutePath, exists' := true, size := some st.size,
        publicPath := publicPath }

/-- `execute(plan, options)`: runs the main loop, applies the retroactive
skip-reason pass, describes the declared outputs, and assembles the result
(`ensureOutputDirectories` only touches the filesystem). -/
def execute (spawnOracle : Nat → Except String SpawnOutcome)
    (fsys : String → Option FileStat) (plan : CommandPlan)
    (options : ExecOptions) : Except String CommandExecutionResult :=
  let publicRoot :=
    match options.publicRoot with
    | some s => if s = "" then none else some (resolvePath options.cwd s)
    | none => none
  let dryRun := options.dryRun.getD false
  match runSteps spawnOracle dryRun 0 plan.steps initialState with
  | .error e => .error e
  | .ok st =>
    let stepResults := applyRetroSkipReasons st.encounteredFailure st.stepResults
    let resolvedOutputs := describeOutputs fsys options.cwd (collectOutputs plan.steps) publicRoot
    let noExecutedSteps := stepResults.all fun step => step.status ≠ .executed
    .ok { exitCode := st.lastExitCode
          timedOut := st.anyTimedOut
          stdout := st.aggregatedStdout
          stderr := st.aggregatedStderr
          resolvedOutputs := resolvedOutputs
          dryRun := dryRun || noExecutedSteps
          steps := stepResults }

end CommandExecutor

/-! ## TaskPhaseTracker
(`src/backend/src/agent/core/TaskPhaseTracker.ts`)

`new Date().toISOString()` timestamps are modelled by an abstract `Nat`
clock value passed to each mutating call; no claim inspects timestamps. -/

inductive PhaseStatus : Type where
  | pending : PhaseStatus
  | in_progress : PhaseStatus
  | success : PhaseStatus
  | failed : PhaseStatus
deriving Repr, DecidableEq

structure PhaseErrorInfo where
  message : String
  stack : Option String
  name : String
deriving Repr, DecidableEq

structure PhaseLogEntry where
  at' : Nat
  message : String
deriving Repr, DecidableEq

structure TrackedPhase where
  id : String
  title : String
  status : PhaseStatus
  startedAt : Option Nat
  finishedAt : Option Nat
  error : Option PhaseErrorInfo
  meta : List (String × JValue)
  logs : List PhaseLogEntry

/-- `DEFAULT_PHASES`. -/
def DEFAULT_PHASES : List (String × String) :=
  [("plan", "Plan command"), ("execute", "Execute command"), ("summarize", "Summarize results")]

/-- JavaScript object spread `{...a, ...b}` on string-keyed records:
keys of `a` keep their position but take the value from `b` when
overridden, and new keys of `b` are appended. -/
def mergeRecord (a b : List (String × JValue)) : List (String × JValue) :=
  (a.map fun (k, v) => (k, (b.lookup k).getD v)) ++
    b.filter fun (k, _) => (a.lookup k).isNone

/-- The tracker state: `new TaskPhaseTracker()` with the default phases. -/
def TaskPhaseTracker.new : List TrackedPhase :=
  DEFAULT_PHASES.map fun (id, title) =>
    { id := id, title := title, status := .pending, startedAt := none,
      finishedAt := none, error := none, meta := [], logs := [] }

namespace TaskPhaseTracker

/-- `_findPhase` followed by in-place mutation: update the first phase with
the given id (a missing id makes the call a no-op). -/
def updatePhase (phases : List TrackedPhase) (phaseId : String)
    (f : TrackedPhase → TrackedPhase) : List TrackedPhase :=
  match phases with
  | [] => []
  | p :: rest =>
    if p.id = phaseId then f p :: rest
    else p :: updatePhase rest phaseId f

/-- `start(phaseId, meta)` at clock value `now`. -/
def start (phases : List TrackedPhase) (phaseId : String)
    (meta : List (String × JValue)) (now : Nat) : List TrackedPhase :=
  updatePhase phases phaseId fun p =>
    { p with status := .in_progress,
             startedAt := some (p.startedAt.getD now),
             meta := mergeRecord p.meta meta }

/-- `complete(phaseId, meta)` at clock value `now`. -/
def complete (phases : List TrackedPhase) (phaseId : String)
    (meta : List (String × JValue)) (now : Nat) : List TrackedPhase :=
  updatePhase phases phaseId fun p =>
    { p with status := .success,
             finishedAt := some now,
             meta := mergeRecord p.meta meta }

/-- `log(phaseId, message)` at clock value `now`. -/
def log (phases : List TrackedPhase) (phaseId : String) (message : String)
    (now : Nat) : List TrackedPhase :=
  updatePhase phases phaseId fun p =>
    { p with logs := p.logs ++ [{ at' := now, message := message }] }

end TaskPhaseTracker

/-! ## MediaAgent / runTask
(`src/unnamed/part_005`, class `MediaAgent`;
`src/unnamed/part_006`, class `MediaAgentTaskError`) -/

/-- A context value stored in `MediaAgentTaskError.context`. The JavaScript
record holds heterogeneous data; each constructor records which kind of
payload a key carries (`undef` models a key present with value
`undefined`). -/
inductive CtxValue : Type where
  | undef : CtxValue
  | null : CtxValue
  | plan (p : CommandPlan) : CtxValue
  | raw (j : JValue) : CtxValue
  | result (r : CommandExecutionResult) : CtxValue
  | text (s : String) : CtxValue

/-- The error values thrown through the orchestration layer: either a plain
`Error`-like object (optionally carrying the duck-typed `rawPlan` / `debug`
/ `responseText` diagnostic payload a planner error may smuggle), or a
`MediaAgentTaskError` with phases, cause and context. -/
inductive ErrorValue : Type where
  | plain (name message : String) (stack : Option String)
      (rawPlan : Option JValue) (debugInfo : Option JValue)
      (responseText : Option String) : ErrorValue
  | task (message : String) (phases : List TrackedPhase)
      (cause : Option ErrorValue) (context : List (String × CtxValue)) : ErrorValue

namespace ErrorValue

/-- `error.name` (a `MediaAgentTaskError` sets `this.name`). -/
def name : ErrorValue → String
  | plain n _ _ _ _ _ => n
  | task _ _ _ _ => "MediaAgentTaskError"

/-- `error.message`. -/
def message : ErrorValue → String
  | plain _ m _ _ _ _ => m
  | task m _ _ _ => m

/-- `error.stack` (abstracted; no claim inspects stack strings). -/
def stack : ErrorValue → Option String
  | plain _ _ s _ _ _ => s
  | task _ _ _ _ => none

/-- The duck-typed `error?.rawPlan` field. -/
def rawPlanField : ErrorValue → Option JValue
  | plain _ _ _ r _ _ => r
  | task _ _ _ _ => none

/-- The duck-typed `error?.debug` field. -/
def debugField : ErrorValue → Option JValue
  | plain _ _ _ _ d _ => d
  | task _ _ _ _ => none

/-- The duck-typed `error?.responseText` field. -/
def responseTextField : ErrorValue → Option String
  | plain _ _ _ _ _ t => t
  | task _ _ _ _ => none

/-- The phases carried by a thrown `MediaAgentTaskError` (plain errors carry
none). -/
def phases : ErrorValue → List TrackedPhase
  | plain _ _ _ _ _ _ => []
  | task _ p _ _ => p

/-- The context carried by a thrown `MediaAgentTaskError`. -/
def context : ErrorValue → List (String × CtxValue)
  | plain _ _ _ _ _ _ => []
  | task _ _ _ c => c

/-- The cause carried by a thrown `MediaAgentTaskError`. -/
def cause : ErrorValue → Option ErrorValue
  | plain _ _ _ _ _ _ => none
  | task _ _ c _ => c

end ErrorValue

/-- `tracker.fail(phaseId, error, meta)`: record failure and capture the
error's message, stack, and name. -/
def TaskPhaseTracker.fail (phases : List TrackedPhase) (phaseId : String)
    (error : ErrorValue) (meta : List (String × JValue)) (now : Nat) :
    List TrackedPhase :=
  TaskPhaseTracker.updatePhase phases phaseId fun p =>
    { p with status := .failed,
             finishedAt := some now,
             meta := mergeRecord p.meta meta,
             error := some { message := error.message, stack := error.stack,
                             name := error.name } }

/-- What the planner collaborator resolves with on success
(`planner.plan(request, ...) -> {plan, rawPlan, debug?}`). -/
structure PlannerSuccess where
  plan : CommandPlan
  rawPlan : Option JValue
  debugInfo : Option JValue

/-- The request passed to `runTask`. -/
structure AgentRequest where
  task : String
  outputDir : String

/-- The options passed to `runTask` (`dryRun`, `debug`, `includeRawResponse`
plus the execution options forwarded to the executor). -/
structure RunTaskOptions where
  dryRun : Option Bool := none
  execution : ExecOptions := {}

/-- What `runTask` resolves with. -/
structure RunTaskResult where
  plan : CommandPlan
  rawPlan : JValue
  result : CommandExecutionResult
  phases : List TrackedPhase
  debugInfo : Option JValue

/-- `hasExecutionFailure(result)` from `src/unnamed/part_005`. -/
def hasExecutionFailure (result : CommandExecutionResult) : Bool :=
  if result.timedOut then true
  else if result.exitCode.isSome && result.exitCode ≠ some 0 then true
  else result.steps.any fun step =>
    step.status = .executed && (step.timedOut || (step.exitCode.isSome && step.exitCode ≠ some 0))

/-- `describeExecutionFailure(result)` from `src/unnamed/part_005`. -/
def describeExecutionFailure (result : CommandExecutionResult) : String :=
  if result.timedOut then "Command execution timed out."
  else
    match result.steps.find? (fun step =>
        step.status = .executed &&
          (step.timedOut || (step.exitCode.isSome && step.exitCode ≠ some 0))) with
    | some failedStep =>
      if failedStep.timedOut then s!"Command \"{failedStep.command}\" timed out."
      else
        let exitCode :=
          match failedStep.exitCode with
          | some c => toString c
          | none => "unknown"
        s!"Command \"{failedStep.command}\" exited with code {exitCode}."
    | none =>
      match result.exitCode with
      | some c => if c ≠ 0 then s!"Command execution exited with code {c}." else "Command execution failed."
      | none => "Command execution failed."

/-- The `executeMeta` record assembled in `runTask`. -/
def executeMetaOf (dryRun : Bool) (result : CommandExecutionResult) :
    List (String × JValue) :=
  [("exitCode", match result.exitCode with | some c => .num c | none => .null),
   ("timedOut", .bool result.timedOut),
   ("dryRun", .bool (dryRun || result.dryRun)),
   ("steps", .arr (result.steps.map fun step =>
      .obj [("command", .str step.command),
            ("status", .str (match step.status with
                             | .executed => "executed"
                             | .skipped => "skipped")),
            ("exitCode", match step.exitCode with | some c => .num c | none => .null),
            ("timedOut", .bool step.timedOut),
            ("skipReason", match step.skipReason with
              | some .dry_run => .str "dry_run"
              | some .previous_step_failed => .str "previous_step_failed"
              | some .no_op_command => .str "no_op_command"
              | none => .null)]))]

/-- `MediaAgent.runTask(request, options)` (`src/unnamed/part_005`).

The planner collaborator is external: its outcome for this request is the
`planner` argument. The executor is the embedded `CommandExecutor.execute`
run against the `spawnOracle` / `fsys` oracles. The successive `Nat` clock
values model the wall-clock timestamps taken by the phase tracker. -/
def runTask (planner : Except ErrorValue PlannerSuccess)
    (spawnOracle : Nat → Except String SpawnOutcome)
    (fsys : String → Option FileStat)
    (request : AgentRequest) (options : RunTaskOptions) :
    Except ErrorValue RunTaskResult :=
  let dryRun := options.dryRun.getD false
  let tracker0 := TaskPhaseTracker.new
  let tracker1 := TaskPhaseTracker.start tracker0 "plan"
    [("task", .str (jsSlice0 request.task 120))] 0
  match planner with
  | .error e =>
    let tracker2 := TaskPhaseTracker.fail tracker1 "plan" e [] 1
    .error (.task "Plan phase failed" tracker2 (some e)
      [("rawPlan", match e.rawPlanField with | some j => .raw j | none => .null),
       ("debug", match e.debugField with | some j => .raw j | none => .null),
       ("responseText", match e.responseTextField with | some t => .text t | none => .null)])
  | .ok planResult =>
    let plan := planResult.plan
    let rawPlan := planResult.rawPlan
    let debugInfo := planResult.debugInfo
    let tracker2 := TaskPhaseTracker.complete tracker1 "plan"
      [("steps", .num plan.steps.length),
       ("commands", .arr (plan.steps.map fun step => .str step.command))] 1
    let tracker3 := TaskPhaseTracker.start tracker2 "execute" [("dryRun", .bool dryRun)] 2
    let tracker3 :=
      if dryRun then
        TaskPhaseTracker.log tracker3 "execute"
          "Dry-run mode enabled; skipping command execution." 2
      else tracker3
    let ctxRawPlan : CtxValue := .raw (rawPlan.getD plan.toJValue)
    let ctxDebug : CtxValue := match debugInfo with | some j => .raw j | none => .undef
    match CommandExecutor.execute spawnOracle fsys plan
        { options.execution with dryRun := some dryRun } with
    | .error spawnErr =>
      -- `executor.execute` rejected; the `catch` block wraps the error.
      let e : ErrorValue := .plain "Error" spawnErr none none none none
      let tracker4 := TaskPhaseTracker.fail tracker3 "execute" e [] 3
      .error (.task "Execution phase failed" tracker4 (some e)
        [("plan", .plan plan), ("rawPlan", ctxRawPlan), ("debug", ctxDebug)])
    | .ok result =>
      let executeMeta := executeMetaOf dryRun result
      if hasExecutionFailure result then
        -- the synthesized CommandExecutionError and the inner
        -- MediaAgentTaskError thrown inside the `try` block …
        let failureError : ErrorValue :=
          .plain "CommandExecutionError" (describeExecutionFailure result) none none none none
        let tracker4 := TaskPhaseTracker.fail tracker3 "execute" failureError executeMeta 3
        let innerError : ErrorValue :=
          .task "Execution phase failed" tracker4 (some failureError)
            [("plan", .plan plan), ("rawPlan", ctxRawPlan), ("debug", ctxDebug),
             ("result", .result result)]
        -- … is caught by the `catch (error)` of the same `try`, which fails
        -- the phase again and re-wraps it without the result payload.
        let tracker5 := TaskPhaseTracker.fail tracker4 "execute" innerError [] 4
        .error (.task "Execution phase failed" tracker5 (some innerError)
          [("plan", .plan plan), ("rawPlan", ctxRawPlan), ("debug", ctxDebug)])
      else
        let tracker4 := TaskPhaseTracker.complete tracker3 "execute" executeMeta 3
        let tracker5 := TaskPhaseTracker.start tracker4 "summarize" [] 4
        let tracker6 := TaskPhaseTracker.complete tracker5 "summarize"
          [("outputs", .num result.resolvedOutputs.length)] 5
        .ok { plan := plan
              rawPlan := rawPlan.getD plan.toJValue
              result := result
              phases := tracker6
              debugInfo := debugInfo }

/-! ## Revision file composition (`src/unnamed/part_012`,
`prepareRevisionFiles` / `createRevisionFileDescriptor` / `guessMimeType`) -/

/-- The file-descriptor shape of `AgentRequest['files']` entries. -/
structure AgentFile where
  id : String
  originalName : String
  absolutePath : String
  size : Int
  mimeType : Option String
deriving Repr, DecidableEq

/-- JavaScript `String.prototype.toLowerCase` (ASCII). -/
def jsToLower (s : String) : String :=
  ⟨s.data.map fun c => if 'A' ≤ c ∧ c ≤ 'Z' then Char.ofNat (c.toNat + 32) else c⟩

/-- `guessMimeType(filePath)`. -/
def guessMimeType (filePath : String) : Option String :=
  let extension := jsToLower (extnamePath filePath)
  if extension = ".png" then some "image/png"
  else if extension = ".jpg" ∨ extension = ".jpeg" then some "image/jpeg"
  else if extension = ".gif" then some "image/gif"
  else if extension = ".webp" then some "image/webp"
  else if extension = ".bmp" then some "image/bmp"
  else if extension = ".tiff" ∨ extension = ".tif" then some "image/tiff"
  else if extension = ".mp4" ∨ extension = ".m4v" then some "video/mp4"
  else if extension = ".mov" then some "video/quicktime"
  else if extension = ".webm" then some "video/webm"
  else if extension = ".mp3" then some "audio/mpeg"
  else if extension = ".wav" then some "audio/wav"
  else if extension = ".ogg" then some "audio/ogg"
  else if extension = ".m4a" then some "audio/mp4"
  else if extension = ".flac" then some "audio/flac"
  else none

/-- `createRevisionFileDescriptor(source, fallbackId, seen)`: returns the
descriptor together with the updated `seen` set (`none` leaves `seen`
unchanged — the function adds the path only when it returns a descriptor).
`fsys` is the filesystem oracle (`existsSync` = the path is present;
`stat.isFile()` from the stat record). -/
def createRevisionFileDescriptor (fsys : String → Option FileStat) (cwd : String)
    (source : JValue) (fallbackId : String) (seen : List String) :
    Option AgentFile :=
  let targetPath := ((source.getFieldD "absolutePath").asString).getD ""
  if targetPath = "" then none
  else
    let absolutePath := resolvePath cwd targetPath
    if absolutePath ∈ seen then none
    else
      match fsys absolutePath with
      | none => none
      | some st =>
        if ¬ st.isFile then none
        else
          some
            { id :=
                match (source.getFieldD "id").asString with
                | some s => if s ≠ "" then s else fallbackId
                | none => fallbackId
              originalName :=
                match (source.getFieldD "originalName").asString with
                | some s => if s ≠ "" then s else basenamePath absolutePath
                | none => basenamePath absolutePath
              absolutePath := absolutePath
              size :=
                match source.getFieldD "size" with
                | .num n => n
                | _ => st.size
              mimeType :=
                match (source.getFieldD "mimeType").asString with
                | some s => if s ≠ "" then some s else guessMimeType absolutePath
                | none => guessMimeType absolutePath }

/-- The loop over `baseRecord.uploadedFiles` (first loop of
`prepareRevisionFiles`): collected descriptors and updated `seen` set. -/
def collectUploadedFiles (fsys : String → Option FileStat) (cwd : String) :
    Nat → List JValue → List String → List AgentFile × List String
  | _, [], seen => ([], seen)
  | index, source :: rest, seen =>
    match createRevisionFileDescriptor fsys cwd source s!"input-{index}" seen with
    | some d =>
      let (ds, seen') := collectUploadedFiles fsys cwd (index + 1) rest (d.absolutePath :: seen)
      (d :: ds, seen')
    | none => collectUploadedFiles fsys cwd (index + 1) rest seen

/-- The synthetic source object built for one resolved output in the second
loop of `prepareRevisionFiles`. -/
def outputSource (index : Nat) (output : JValue) : JValue :=
  .obj [("id", .str s!"output-{index}"),
        ("originalName", .str (
          match (output.getFieldD "absolutePath").asString with
          | some s =>
            if s ≠ "" then basenamePath s
            else
              match (output.getFieldD "path").asString with
              | some p => if p ≠ "" then basenamePath p else basenamePath s!"output-{index}"
              | none => basenamePath s!"output-{index}"
          | none =>
            match (output.getFieldD "path").asString with
            | some p => if p ≠ "" then basenamePath p else basenamePath s!"output-{index}"
            | none => basenamePath s!"output-{index}")),
        ("absolutePath",
          if (output.getFieldD "absolutePath").jsTruthy then output.getFieldD "absolutePath"
          else output.getFieldD "path"),
        ("size",
          match output.getFieldD "size" with
          | .num n => .num n
          | _ => .undef),
        ("mimeType", .undef)]

/-- The loop over `baseRecord.result.resolvedOutputs` (second loop of
`prepareRevisionFiles`); outputs whose `exists` field is falsy are
skipped. -/
def collectResolvedOutputs (fsys : String → Option FileStat) (cwd : String) :
    Nat → List JValue → List String → List AgentFile
  | _, [], _ => []
  | index, output :: rest, seen =>
    if ¬ ((output.jsTruthy) && (output.getFieldD "exists").jsTruthy) then
      collectResolvedOutputs fsys cwd (index + 1) rest seen
    else
      match createRevisionFileDescriptor fsys cwd (outputSource index output)
          s!"output-{index}" seen with
      | some d => d :: collectResolvedOutputs fsys cwd (index + 1) rest (d.absolutePath :: seen)
      | none => collectResolvedOutputs fsys cwd (index + 1) rest seen

/-- `prepareRevisionFiles(baseRecord)`. -/
def prepareRevisionFiles (fsys : String → Option FileStat) (cwd : String)
    (baseRecord : JValue) : List AgentFile :=
  let inputs := ((baseRecord.getFieldD "uploadedFiles").asArray).getD []
  let (uploaded, seen) := collectUploadedFiles fsys cwd 0 inputs []
  let outputs := (((baseRecord.getFieldD "result").getFieldD "resolvedOutputs").asArray).getD []
  uploaded ++ collectResolvedOutputs fsys cwd 0 outputs seen

/-! ## Revision ancestry walk
(`src/backend/src/server/MediaAgentServer.ts`, `collectRevisionHistory`) -/

/-- The body of the `while` loop of `collectRevisionHistory`, with the
remaining iteration budget `25 - safetyCounter` as explicit fuel. The
session store is the oracle `store` (`readSessionRecord`; `none` covers
both a missing record and a `null` read). `visited` holds the id values
added to the `Set`, compared with SameValueZero as `Set.has` does. -/
def collectRevisionHistoryAux (store : JValue → Option JValue) :
    Nat → List JValue → JValue → List JValue
  | 0, _, _ => []
  | fuel + 1, visited, current =>
    if ¬ current.jsTruthy then []
    else if visited.any (fun v => v.sameValueZero (current.getFieldD "id")) then []
    else
      current ::
        (if ¬ (current.getFieldD "parentSessionId").jsTruthy then []
         else
           match store (current.getFieldD "parentSessionId") with
           | none => []
           | some parent =>
             collectRevisionHistoryAux store fuel
               ((current.getFieldD "id") :: visited) parent)

/-- `collectRevisionHistory(startRecord)`: the loop runs while the current
record is truthy, its id is unvisited, and fewer than 25 records have been
collected. -/
def collectRevisionHistory (store : JValue → Option JValue)
    (startRecord : JValue) : List JValue :=
  if ¬ startRecord.jsTruthy then []
  else collectRevisionHistoryAux store 25 [] startRecord

/-! ## Specification-side definitions

These definitions follow the words of the specification (not the code) and
exist to be compared against the embedded code. -/

/-- Modelled from the spec: "`resolve(p)` is a descendant of
`resolve(outputDir)`" — the segments of the resolved directory are a
leading run of the segments of the resolved path (so the directory itself
counts as its own descendant, matching the accepted `relative = ""`
case). -/
def isPathDescendant (dir p : String) : Prop :=
  ∃ rest, splitSlash dir.data ++ rest = splitSlash p.data

instance (dir p : String) : Decidable (isPathDescendant dir p) := by
  unfold isPathDescendant
  exact decidable_of_iff ((splitSlash dir.data).isPrefixOf (splitSlash p.data) = true)
    (by rw [List.isPrefixOf_iff_prefix]; exact Iff.rfl)

/-- The first path segment of `p` below the directory `dir` (meaningful when
`p` is a descendant of `dir`). -/
def firstSegBelow (dir p : String) : Option (List Char) :=
  ((splitSlash p.data).drop (splitSlash dir.data).length).head?

/-- Modelled from the spec (§9, design notes): the single forward pass over
the plan steps "that tracks a `failed_so_far` boolean and assigns skip
reason at evaluation time per step", with no retroactive patch pass; all
other behaviour of `execute` is unchanged. -/
def executeSingleForwardPass (spawnOracle : Nat → Except String SpawnOutcome)
    (fsys : String → Option FileStat) (plan : CommandPlan)
    (options : ExecOptions) : Except String CommandExecutionResult :=
  let publicRoot :=
    match options.publicRoot with
    | some s => if s = "" then none else some (resolvePath options.cwd s)
    | none => none
  let dryRun := options.dryRun.getD false
  match CommandExecutor.runSteps spawnOracle dryRun 0 plan.steps CommandExecutor.initialState with
  | .error e => .error e
  | .ok st =>
    let resolvedOutputs :=
      CommandExecutor.describeOutputs fsys options.cwd
        (CommandExecutor.collectOutputs plan.steps) publicRoot
    let noExecutedSteps := st.stepResults.all fun step => step.status ≠ .executed
    .ok { exitCode := st.lastExitCode
          timedOut := st.anyTimedOut
          stdout := st.aggregatedStdout
          stderr := st.aggregatedStderr
          resolvedOutputs := resolvedOutputs
          dryRun := dryRun || noExecutedSteps
          steps := st.stepResults }

/-- The well-formedness facts guaranteed for every step result the executor
records: a skipped step carries no exit code, no timeout, empty stdio and a
definite skip reason, and an executed step carries no skip reason. -/
def goodStepResult (r : CommandStepResult) : Prop :=
  (r.status = .skipped →
    r.exitCode = none ∧ r.timedOut = false ∧ r.stdout = "" ∧ r.stderr = "" ∧
      r.skipReason.isSome) ∧
  (r.status = .executed → r.skipReason = none)

/-- The most recently executed step of a result list. -/
def lastExecutedStep (steps : List CommandStepResult) : Option CommandStepResult :=
  (steps.filter fun r => r.status = .executed).getLast?

/-- A step result that represents a failed command: it ran and either timed
out or exited with a non-null, nonzero code. -/
def failedStepResult (r : CommandStepResult) : Prop :=
  r.status = .executed ∧ (r.timedOut = true ∨ ∃ c, r.exitCode = some c ∧ c ≠ 0)

/-- Consistency of the main-loop state with the results recorded so far:
the running `lastExitCode` / `anyTimedOut` locals agree with the most
recently executed step (or are `none` / `false` when nothing executed),
a failed executed step at the end of the record implies the failure flag,
and a recorded timeout implies the failure flag. -/
def loopStateConsistent (st : CommandExecutor.LoopState) : Prop :=
  (match lastExecutedStep st.stepResults with
   | some r =>
     (failedStepResult r → st.encounteredFailure = true) ∧
       st.lastExitCode = r.exitCode ∧ st.anyTimedOut = r.timedOut
   | none => st.lastExitCode = none ∧ st.anyTimedOut = false) ∧
  (st.anyTimedOut = true → st.encounteredFailure = true)

/-! ## Fixtures for the validator idempotence claim -/

/-- A raw plan whose single declared output path normalizes to a path with
a trailing space (`"/tmp/out/a /."` resolves to `"/tmp/out/a "`), exposing
re-trimming drift on a second validation. -/
def c7RawPlan : JValue :=
  .obj [("overview", .str "o"), ("followUp", .str "f"),
        ("steps", .arr [
          .obj [("command", .str "none"), ("arguments", .arr []),
                ("reasoning", .str "r"),
                ("outputs", .arr [
                  .obj [("path", .str "/tmp/out/a /."), ("description", .str "d")]])]])]

/-- Fallback plan (only used to keep the fixture definitions total). -/
def c7FallbackPlan : CommandPlan := { overview := "", followUp := "", steps := [] }

/-- The result of the first validation of `c7RawPlan`. -/
def c7First : CommandPlan :=
  match PlanValidator.validate ToolRegistry.createDefault "/" c7RawPlan "/tmp/out" with
  | .ok p => p
  | .error _ => c7FallbackPlan

/-- The result of re-validating `c7First`. -/
def c7Second : CommandPlan :=
  match PlanValidator.validate ToolRegistry.createDefault "/" c7First.toJValue "/tmp/out" with
  | .ok p => p
  | .error _ => c7FallbackPlan

/-- A well-behaved raw plan (no whitespace artifacts) for the amended
idempotence witness. -/
def c7GoodRawPlan : JValue :=
  .obj [("overview", .str "o"), ("followUp", .str "f"),
        ("steps", .arr [
          .obj [("command", .str "ffmpeg"), ("arguments", .arr [.str "-i", .str "x.mp4"]),
                ("reasoning", .str "r"), ("id", .str " step-1 "),
                ("outputs", .arr [
                  .obj [("path", .str "/tmp/out/sub/file.png"), ("description", .str "d")]])]])]

/-- The result of validating `c7GoodRawPlan`. -/
def c7GoodFirst : CommandPlan :=
  match PlanValidator.validate ToolRegistry.createDefault "/" c7GoodRawPlan "/tmp/out" with
  | .ok p => p
  | .error _ => c7FallbackPlan

/-! ## Concrete fixtures

Small concrete plans, oracles and records used by witness and
counterexample theorems. -/

/-- A concrete two-step plan: a real command followed by another real
command (used to exercise failure propagation). -/
def wPlanFF : CommandPlan :=
  { overview := ""
    followUp := ""
    steps := [{ command := "ffmpeg", arguments := ["-i", "in.mp4", "out.mp4"],
                reasoning := "", outputs := [], id := none, title := none, note := none },
              { command := "magick", arguments := ["a.png", "b.png"],
                reasoning := "", outputs := [], id := none, title := none, note := none }] }

/-- A spawn oracle whose first step exits 1 and whose later steps exit 0. -/
def wSpawnFail0 : Nat → Except String SpawnOutcome := fun i =>
  if i = 0 then .ok { code := some 1, stdout := "", stderr := "boom", timedOut := false }
  else .ok { code := some 0, stdout := "ok", stderr := "", timedOut := false }

/-- A spawn oracle that always succeeds with exit code 0. -/
def wSpawnOk : Nat → Except String SpawnOutcome := fun _ =>
  .ok { code := some 0, stdout := "hello", stderr := "", timedOut := false }

/-- The empty filesystem oracle. -/
def wFsEmpty : String → Option FileStat := fun _ => none

/-- Default execution options at root. -/
def wOpts : ExecOptions := { cwd := "/", publicRoot := none, dryRun := none }

/-- Fallback result record (only used to give total definitions below). -/
def emptyExecResult : CommandExecutionResult :=
  { exitCode := none, timedOut := false, stdout := "", stderr := "",
    resolvedOutputs := [], dryRun := false, steps := [] }

/-- The concrete result of running `wPlanFF` under `wSpawnFail0`. -/
def wResFail : CommandExecutionResult :=
  match CommandExecutor.execute wSpawnFail0 wFsEmpty wPlanFF wOpts with
  | .ok r => r
  | .error _ => emptyExecResult

/-- The concrete result of running `wPlanFF` under `wSpawnOk`. -/
def wResOk : CommandExecutionResult :=
  match CommandExecutor.execute wSpawnOk wFsEmpty wPlanFF wOpts with
  | .ok r => r
  | .error _ => emptyExecResult

/-- A concrete three-step plan used to exercise mid-sequence failure. -/
def wPlan3 : CommandPlan :=
  { overview := ""
    followUp := ""
    steps := [{ command := "ffmpeg", arguments := ["-i", "in.mp4", "mid.wav"],
                reasoning := "", outputs := [], id := none, title := none, note := none },
              { command := "magick", arguments := ["a.png", "b.png"],
                reasoning := "", outputs := [], id := none, title := none, note := none },
              { command := "exiftool", arguments := ["b.png"],
                reasoning := "", outputs := [], id := none, title := none, note := none }] }

/-- A spawn oracle where step 1 exits 2 and the other steps exit 0. -/
def wSpawnFailAt1 : Nat → Except String SpawnOutcome := fun i =>
  if i = 1 then .ok { code := some 2, stdout := "", stderr := "bad", timedOut := false }
  else .ok { code := some 0, stdout := "fine", stderr := "", timedOut := false }

/-- The concrete result of running `wPlan3` under `wSpawnFailAt1`. -/
def wRes3 : CommandExecutionResult :=
  match CommandExecutor.execute wSpawnFailAt1 wFsEmpty wPlan3 wOpts with
  | .ok r => r
  | .error _ => emptyExecResult

/-- The recorded result of step 1 of `wRes3`. -/
def wRes3Step1 : CommandStepResult :=
  (wRes3.steps[1]?).getD
    (CommandExecutor.createSkippedResult
      { command := "none", arguments := [], reasoning := "", outputs := [],
        id := none, title := none, note := none } .dry_run)

/-! ## Fixtures for the orchestration claims -/

/-- A planner that succeeds with `wPlanFF` and no raw plan or debug data. -/
def wPlannerOk : Except ErrorValue PlannerSuccess :=
  .ok { plan := wPlanFF, rawPlan := none, debugInfo := none }

/-- A planner error carrying the duck-typed diagnostic payload. -/
def wPlannerErr : ErrorValue :=
  .plain "Error" "model returned malformed JSON" none
    (some (.str "raw plan text")) none (some "response text")

/-- A concrete agent request. -/
def wRequest : AgentRequest := { task := "convert the video", outputDir := "/tmp/out" }

/-- Default run options. -/
def wRunOpts : RunTaskOptions := {}

/-- The error thrown by a failed task run, if any. -/
def runTaskError : Except ErrorValue RunTaskResult → Option ErrorValue
  | .error e => some e
  | .ok _ => none

/-- Context lookup on the error thrown by a task run. -/
def thrownContextEntry (r : Except ErrorValue RunTaskResult) (key : String) :
    Option CtxValue :=
  (runTaskError r).bind fun e => e.context.lookup key

/-! ## Fixtures for the revision-composition claims -/

/-- A filesystem with two regular files. -/
def c8Fs : String → Option FileStat := fun p =>
  if p = "/data/a.png" then some { isFile := true, size := 10 }
  else if p = "/data/b.mp4" then some { isFile := true, size := 20 }
  else none

/-- A base session record whose uploaded file and first resolved output
share the absolute path `"/data/a.png"`, with a second distinct output and
a vanished third output. -/
def c8Record : JValue :=
  .obj [("uploadedFiles", .arr [
          .obj [("id", .str "u1"), ("originalName", .str "a.png"),
                ("absolutePath", .str "/data/a.png"), ("size", .num 10),
                ("mimeType", .str "image/png")]]),
        ("result", .obj [("resolvedOutputs", .arr [
          .obj [("absolutePath", .str "/data/a.png"), ("path", .str "/data/a.png"),
                ("exists", .bool true), ("size", .num 10)],
          .obj [("absolutePath", .str "/data/b.mp4"), ("path", .str "/data/b.mp4"),
                ("exists", .bool true), ("size", .num 20)],
          .obj [("absolutePath", .str "/data/gone.png"), ("exists", .bool true)]])])]

/-! # Theorems -/

/-! ## Sanity checks for the path model -/

example : resolvePath "/" "/tmp/out/../x" = "/tmp/x" := by decide
example : resolvePath "/a/b" "c/./d" = "/a/b/c/d" := by decide
example : resolvePath "/" "/.." = "/" := by decide
example : relativePath "/" "/tmp/out" "/tmp/out/sub/f.png" = "sub/f.png" := by decide
example : relativePath "/" "/tmp/out" "/etc/passwd" = "../../etc/passwd" := by decide
example : relativePath "/" "/tmp/out" "/tmp/out" = "" := by decide
example : relativePath "/" "/tmp/out" "/tmp/out/..foo" = "..foo" := by decide
example : basenamePath "/tmp/out/a.png" = "a.png" := by decide
example : extnamePath "/tmp/out/a.png" = ".png" := by decide
example : jsTrim "  a b\t" = "a b" := by decide

/-! ## Path model lemmas -/

/-- Scanning a slash-free run of characters just accumulates it. -/
theorem splitSlashAux_noSlash (x : List Char) (hx : ∀ c ∈ x, c ≠ '/') :
    ∀ (rest cur : List Char),
      splitSlashAux (x ++ rest) cur = splitSlashAux rest (x.reverse ++ cur) := by
  induction x with
  | nil => intro rest cur; simp
  | cons c x ih =>
    intro rest cur
    have hc : c ≠ '/' := hx c (List.mem_cons_self c x)
    simp only [List.cons_append, splitSlashAux, if_neg hc, List.append_eq]
    rw [ih (fun d hd => hx d (List.mem_cons_of_mem c hd)) rest (c :: cur)]
    simp

/-- A leading slash contributes no segment. -/
theorem splitSlash_cons_slash (cs : List Char) :
    splitSlash ('/' :: cs) = splitSlash cs := by
  simp [splitSlash, splitSlashAux]

/-- Splitting undoes joining for nonempty slash-free segments. -/
theorem splitSlash_joinSlash :
    ∀ (l : List (List Char)),
      (∀ seg ∈ l, seg ≠ [] ∧ ∀ c ∈ seg, c ≠ '/') →
      splitSlash (joinSlash l) = l := by
  intro l
  induction l with
  | nil => intro _; simp [joinSlash, splitSlash, splitSlashAux]
  | cons x ys ih =>
    intro hl
    rcases hl x (List.mem_cons_self x ys) with ⟨hxne, hxns⟩
    cases ys with
    | nil =>
      simp only [joinSlash, splitSlash]
      rw [show x = x ++ [] by simp, splitSlashAux_noSlash x hxns [] []]
      simp [splitSlashAux, hxne]
    | cons y ys' =>
      simp only [joinSlash, splitSlash]
      rw [splitSlashAux_noSlash x hxns ('/' :: joinSlash (y :: ys')) []]
      simp only [splitSlashAux]
      have ihy := ih (fun seg hseg => hl seg (List.mem_cons_of_mem x hseg))
      simp only [splitSlash] at ihy
      simp only [decide_not] at ihy
      simp [hxne, ihy]

/-- Every segment produced by `splitSlash` is nonempty and slash-free. -/
theorem splitSlash_good (cs : List Char) :
    ∀ seg ∈ splitSlash cs, seg ≠ [] ∧ ∀ c ∈ seg, c ≠ '/' := by
  have haux : ∀ (cs cur : List Char), (∀ c ∈ cur, c ≠ '/') →
      ∀ seg ∈ splitSlashAux cs cur, ∀ c ∈ seg, c ≠ '/' := by
    intro cs
    induction cs with
    | nil =>
      intro cur hcur seg hseg
      simp only [splitSlashAux, List.mem_singleton] at hseg
      subst hseg
      intro c hc
      exact hcur c (List.mem_reverse.mp hc)
    | cons d cs ih =>
      intro cur hcur seg hseg
      by_cases hd : d = '/'
      · subst hd
        simp only [splitSlashAux, if_true, eq_self_iff_true, List.mem_cons] at hseg
        rcases hseg with h | hseg
        · subst h
          intro c hc
          exact hcur c (List.mem_reverse.mp hc)
        · exact ih [] (by simp) seg hseg
      · simp only [splitSlashAux, if_neg hd] at hseg
        refine ih (d :: cur) ?_ seg hseg
        intro c hc
        rcases List.mem_cons.mp hc with rfl | hc
        · exact hd
        · exact hcur c hc
  intro seg hseg
  rcases List.mem_filter.mp hseg with ⟨hmem, hpred⟩
  exact ⟨of_decide_eq_true hpred, haux cs [] (by simp) seg hmem⟩

/-- Segment normalization keeps only (non-dot) input or accumulator
segments. -/
theorem normSegsAux_mem :
    ∀ (rest acc : List (List Char)) (x : List Char),
      x ∈ normSegsAux acc rest →
      x ∈ acc ∨ (x ∈ rest ∧ x ≠ ['.'] ∧ x ≠ ['.', '.']) := by
  intro rest
  induction rest with
  | nil =>
    intro acc x hx
    simp only [normSegsAux] at hx
    exact Or.inl (List.mem_reverse.mp hx)
  | cons seg rest ih =>
    intro acc x hx
    simp only [normSegsAux] at hx
    by_cases h1 : seg = ['.']
    · rw [if_pos h1] at hx
      rcases ih acc x hx with h | ⟨h, h2⟩
      · exact Or.inl h
      · exact Or.inr ⟨List.mem_cons_of_mem seg h, h2⟩
    · rw [if_neg h1] at hx
      by_cases h2 : seg = ['.', '.']
      · rw [if_pos h2] at hx
        cases acc with
        | nil =>
          rcases ih [] x hx with h | ⟨h, h3⟩
          · cases h
          · exact Or.inr ⟨List.mem_cons_of_mem seg h, h3⟩
        | cons a acc' =>
          rcases ih acc' x hx with h | ⟨h, h3⟩
          · exact Or.inl (List.mem_cons_of_mem a h)
          · exact Or.inr ⟨List.mem_cons_of_mem seg h, h3⟩
      · rw [if_neg h2] at hx
        rcases ih (seg :: acc) x hx with h | ⟨h, h3⟩
        · rcases List.mem_cons.mp h with rfl | h
          · exact Or.inr ⟨List.mem_cons_self x rest, h1, h2⟩
          · exact Or.inl h
        · exact Or.inr ⟨List.mem_cons_of_mem seg h, h3⟩

/-- Normalization is the identity on dot-free segment lists. -/
theorem normSegsAux_id :
    ∀ (l acc : List (List Char)),
      (∀ seg ∈ l, seg ≠ ['.'] ∧ seg ≠ ['.', '.']) →
      normSegsAux acc l = acc.reverse ++ l := by
  intro l
  induction l with
  | nil => intro acc _; simp [normSegsAux]
  | cons seg rest ih =>
    intro acc hl
    rcases hl seg (List.mem_cons_self seg rest) with ⟨h1, h2⟩
    simp only [normSegsAux, if_neg h1, if_neg h2]
    rw [ih (seg :: acc) (fun s hs => hl s (List.mem_cons_of_mem seg hs))]
    simp

/-- A "good" segment: nonempty, slash-free and not a dot segment — the
shape of every segment of a resolved absolute path. -/
def goodSeg (seg : List Char) : Prop :=
  seg ≠ [] ∧ (∀ c ∈ seg, c ≠ '/') ∧ seg ≠ ['.'] ∧ seg ≠ ['.', '.']

theorem splitSlash_joinAbs (l : List (List Char))
    (hl : ∀ seg ∈ l, seg ≠ [] ∧ ∀ c ∈ seg, c ≠ '/') :
    splitSlash (joinAbs l).data = l := by
  show splitSlash ('/' :: joinSlash l) = l
  rw [splitSlash_cons_slash, splitSlash_joinSlash l hl]

/-- Every segment of a resolved path is good, provided the working-directory
segments are nonempty and slash-free. -/
theorem resolveSegs_good (cwdSegs : List (List Char)) (cs : List Char)
    (hcwd : ∀ seg ∈ cwdSegs, seg ≠ [] ∧ ∀ c ∈ seg, c ≠ '/') :
    ∀ seg ∈ resolveSegs cwdSegs cs, goodSeg seg := by
  intro seg hseg
  unfold resolveSegs at hseg
  by_cases habs : isAbsoluteChars cs
  · rw [if_pos habs] at hseg
    rcases normSegsAux_mem _ _ _ hseg with h | ⟨h, h1, h2⟩
    · cases h
    · rcases splitSlash_good cs seg h with ⟨hne, hns⟩
      exact ⟨hne, hns, h1, h2⟩
  · rw [if_neg habs] at hseg
    rcases normSegsAux_mem _ _ _ hseg with h | ⟨h, h1, h2⟩
    · cases h
    · rcases List.mem_append.mp h with h | h
      · rcases hcwd seg h with ⟨hne, hns⟩
        exact ⟨hne, hns, h1, h2⟩
      · rcases splitSlash_good cs seg h with ⟨hne, hns⟩
        exact ⟨hne, hns, h1, h2⟩

/-- The working-directory segments used by `resolvePath` are nonempty and
slash-free. -/
theorem cwdSegs_good (cwd : String) :
    ∀ seg ∈ normSegsAux [] (splitSlash cwd.data), seg ≠ [] ∧ ∀ c ∈ seg, c ≠ '/' := by
  intro seg hseg
  rcases normSegsAux_mem _ _ _ hseg with h | ⟨h, _, _⟩
  · cases h
  · exact splitSlash_good cwd.data seg h

/-- Resolving an already-resolved absolute path reads back its segments. -/
theorem resolveSegs_joinAbs (cwdSegs : List (List Char)) (T : List (List Char))
    (hT : ∀ seg ∈ T, goodSeg seg) :
    resolveSegs cwdSegs (joinAbs T).data = T := by
  have habs : isAbsoluteChars (joinAbs T).data = true := rfl
  unfold resolveSegs
  rw [if_pos habs]
  rw [splitSlash_joinAbs T (fun seg hseg => ⟨(hT seg hseg).1, (hT seg hseg).2.1⟩)]
  rw [normSegsAux_id T [] (fun seg hseg => ⟨(hT seg hseg).2.2.1, (hT seg hseg).2.2.2⟩)]
  simp

/-- `path.resolve` is idempotent. -/
theorem resolvePath_idem (cwd p : String) :
    resolvePath cwd (resolvePath cwd p) = resolvePath cwd p := by
  unfold resolvePath
  congr 1
  exact resolveSegs_joinAbs _ _
    (resolveSegs_good _ p.data (cwdSegs_good cwd))

/-- `dropSharedStart` on a leading-run extension strips the whole first
list. -/
theorem dropSharedStart_of_extends :
    ∀ (f rest : List (List Char)), dropSharedStart f (f ++ rest) = ([], rest) := by
  intro f
  induction f with
  | nil =>
    intro rest
    cases rest with
    | nil => rfl
    | cons b bs => rfl
  | cons a as ih =>
    intro rest
    simp only [List.cons_append, dropSharedStart, if_pos rfl]
    exact ih rest

/-- When the first list is not a leading run of the second, `dropSharedStart`
leaves a nonempty remainder of the first list. -/
theorem dropSharedStart_fst_ne_nil :
    ∀ (f t : List (List Char)), (¬ ∃ rest, f ++ rest = t) →
      (dropSharedStart f t).1 ≠ [] := by
  intro f
  induction f with
  | nil =>
    intro t hne
    exact absurd ⟨t, rfl⟩ hne
  | cons a as ih =>
    intro t hne
    cases t with
    | nil =>
      simp [dropSharedStart]
    | cons b bs =>
      by_cases hab : a = b
      · subst hab
        simp only [dropSharedStart, if_pos rfl]
        refine ih bs ?_
        rintro ⟨rest, rfl⟩
        exact hne ⟨rest, rfl⟩
      · simp [dropSharedStart, hab]

/-- `".."` is a leading run of a joined segment list starting with a good
segment exactly when it is a leading run of that first segment. -/
theorem dotdot_isPrefixOf_joinSlash (h : List Char) (rest : List (List Char))
    (hne : h ≠ []) (hns : ∀ c ∈ h, c ≠ '/') :
    ['.', '.'].isPrefixOf (joinSlash (h :: rest)) = ['.', '.'].isPrefixOf h := by
  cases rest with
  | nil => rfl
  | cons r rest' =>
    show ['.', '.'].isPrefixOf (h ++ '/' :: joinSlash (r :: rest')) = _
    cases h with
    | nil => exact absurd rfl hne
    | cons c₁ h' =>
      cases h' with
      | nil =>
        have hc : ('.' == '/') = false := by decide
        simp [List.isPrefixOf, hc]
      | cons c₂ h'' =>
        simp [List.isPrefixOf]

/-- A join of good segments never starts with `'/'`. -/
theorem joinSlash_not_absolute (l : List (List Char))
    (hl : ∀ seg ∈ l, seg ≠ [] ∧ ∀ c ∈ seg, c ≠ '/') :
    isAbsoluteChars (joinSlash l) = false := by
  cases l with
  | nil => rfl
  | cons x xs =>
    rcases hl x (List.mem_cons_self x xs) with ⟨hxne, hxns⟩
    have hjoin : ∃ restcs, joinSlash (x :: xs) = x ++ restcs := by
      cases xs with
      | nil => exact ⟨[], by simp [joinSlash]⟩
      | cons y ys => exact ⟨'/' :: joinSlash (y :: ys), rfl⟩
    rcases hjoin with ⟨restcs, hj⟩
    rw [hj]
    cases x with
    | nil => exact absurd rfl hxne
    | cons c x' =>
      have hc : c ≠ '/' := hxns c (List.mem_cons_self c x')
      simp [isAbsoluteChars, hc]

/-- The second component of `dropSharedStart` is drawn from the second
argument. -/
theorem dropSharedStart_snd_subset :
    ∀ (f t : List (List Char)), ∀ x ∈ (dropSharedStart f t).2, x ∈ t := by
  intro f
  induction f with
  | nil =>
    intro t x hx
    cases t with
    | nil => cases hx
    | cons b bs => exact hx
  | cons a as ih =>
    intro t x hx
    cases t with
    | nil => cases hx
    | cons b bs =>
      by_cases hab : a = b
      · subst hab
        simp only [dropSharedStart, if_pos rfl] at hx
        exact List.mem_cons_of_mem a (ih bs x hx)
      · simp only [dropSharedStart, if_neg hab] at hx
        exact hx

/-- Over already-resolved paths, the escape test of `validateOutput`
(`relative` starts with `".."`, or is absolute) holds iff the target is not
a descendant of the directory or its first segment below the directory
itself begins with `".."`; and the relative path is in fact never
absolute. -/
theorem relativePath_escape_test (cwd : String) (F T : List (List Char))
    (hF : ∀ seg ∈ F, goodSeg seg) (hT : ∀ seg ∈ T, goodSeg seg) :
    (jsStartsWith (relativePath cwd (joinAbs F) (joinAbs T)) ".." = true ↔
      ((¬ ∃ rest, F ++ rest = T) ∨
        ∃ h hs, T.drop F.length = h :: hs ∧ ['.', '.'].isPrefixOf h = true)) ∧
    isAbsolutePath (relativePath cwd (joinAbs F) (joinAbs T)) = false := by
  have hrel : relativePath cwd (joinAbs F) (joinAbs T) =
      ⟨joinSlash (List.replicate (dropSharedStart F T).1.length ['.', '.'] ++
        (dropSharedStart F T).2)⟩ := by
    unfold relativePath
    rw [resolveSegs_joinAbs _ F hF, resolveSegs_joinAbs _ T hT]
  have hgoodl : ∀ seg ∈ List.replicate (dropSharedStart F T).1.length ['.', '.'] ++
      (dropSharedStart F T).2, seg ≠ [] ∧ ∀ c ∈ seg, c ≠ '/' := by
    intro seg hseg
    rcases List.mem_append.mp hseg with h | h
    · rw [List.eq_of_mem_replicate h]
      refine ⟨by simp, ?_⟩
      intro c hc
      rcases List.mem_cons.mp hc with rfl | hc
      · decide
      · rcases List.mem_singleton.mp hc with rfl
        decide
    · rcases hT seg (dropSharedStart_snd_subset F T seg h) with ⟨h1, h2, _⟩
      exact ⟨h1, h2⟩
  constructor
  · rw [hrel]
    show (".." : String).data.isPrefixOf _ = true ↔ _
    by_cases hpre : ∃ rest, F ++ rest = T
    · rcases hpre with ⟨rest, rfl⟩
      rw [dropSharedStart_of_extends]
      simp only [List.length_nil, List.replicate_zero, List.nil_append, List.drop_left]
      cases rest with
      | nil =>
        constructor
        · intro h
          cases h
        · rintro (h | ⟨h, hs, hcontra, -⟩)
          · exact absurd ⟨[], rfl⟩ h
          · cases hcontra
      | cons h hs =>
        rcases hT h (by simp) with ⟨hne, hns, -, -⟩
        rw [dotdot_isPrefixOf_joinSlash h hs hne hns]
        constructor
        · intro hh
          exact Or.inr ⟨h, hs, rfl, hh⟩
        · rintro (hcontra | ⟨h', hs', heq, hh⟩)
          · exact absurd ⟨h :: hs, rfl⟩ hcontra
          · cases heq
            exact hh
    · have hne' : (dropSharedStart F T).1 ≠ [] := dropSharedStart_fst_ne_nil F T hpre
      constructor
      · intro _
        exact Or.inl hpre
      · intro _
        cases hl : (dropSharedStart F T).1 with
        | nil => exact absurd hl hne'
        | cons a as =>
          simp only [List.length_cons, List.replicate_succ, List.cons_append]
          rw [dotdot_isPrefixOf_joinSlash ['.', '.'] _ (by simp) (by decide)]
          decide
  · rw [hrel]
    show isAbsoluteChars _ = false
    exact joinSlash_not_absolute _ hgoodl

/-! ## Executor loop invariants -/

namespace CommandExecutor

theorem goodStepResult_skipped (step : CommandStepPlan) (reason : CommandStepSkipReason) :
    goodStepResult (createSkippedResult step reason) := by
  constructor
  · intro _
    simp [createSkippedResult]
  · intro h
    simp [createSkippedResult] at h

theorem goodStepResult_executed (step : CommandStepPlan) (exitCode : Option Int)
    (stdout stderr : String) (timedOut : Bool) :
    goodStepResult (createExecutedResult step exitCode stdout stderr timedOut) := by
  constructor
  · intro h
    simp [createExecutedResult] at h
  · intro _
    simp [createExecutedResult]

/-- Every step result accumulated by the main loop is well formed. -/
theorem runSteps_good (spawnOracle : Nat → Except String SpawnOutcome) (dryRun : Bool) :
    ∀ (steps : List CommandStepPlan) (i : Nat) (st st' : LoopState),
      runSteps spawnOracle dryRun i steps st = .ok st' →
      (∀ r ∈ st.stepResults, goodStepResult r) →
      ∀ r ∈ st'.stepResults, goodStepResult r := by
  intro steps
  induction steps with
  | nil =>
    intro i st st' h hst
    simp only [runSteps] at h
    cases h
    exact hst
  | cons step rest ih =>
    intro i st st' h hst
    simp only [runSteps] at h
    cases hres : resolveSkipReason dryRun st.encounteredFailure step.command with
    | some reason =>
      rw [hres] at h
      refine ih (i + 1) _ st' h ?_
      intro r hr
      rcases List.mem_append.mp hr with hr | hr
      · exact hst r hr
      · rcases List.mem_singleton.mp hr with rfl
        exact goodStepResult_skipped step reason
    | none =>
      rw [hres] at h
      cases horacle : spawnOracle i with
      | error e =>
        rw [horacle] at h
        cases h
      | ok o =>
        rw [horacle] at h
        refine ih (i + 1) _ st' h ?_
        intro r hr
        rcases List.mem_append.mp hr with hr | hr
        · exact hst r hr
        · rcases List.mem_singleton.mp hr with rfl
          exact goodStepResult_executed step (spawnExitCode o) o.stdout o.stderr o.timedOut

/-- The retroactive pass never fires on well-formed results: every skipped
result already carries a reason, so the patched list is unchanged. -/
theorem applyRetroSkipReasons_eq_self (flag : Bool) (l : List CommandStepResult)
    (h : ∀ r ∈ l, r.status = .skipped → r.skipReason.isSome) :
    applyRetroSkipReasons flag l = l := by
  unfold applyRetroSkipReasons
  cases flag with
  | false => simp
  | true =>
    simp only [if_true]
    induction l with
    | nil => simp
    | cons r rest ih =>
      simp only [List.map_cons]
      have hr : ¬ (r.status = .skipped ∧ r.skipReason = none) := by
        rintro ⟨hs, hn⟩
        have := h r (List.mem_cons_self r rest) hs
        rw [hn] at this
        simp at this
      rw [if_neg hr, ih]
      · intro r' hr'
        exact h r' (List.mem_cons_of_mem r hr')

/-- Unfolding of a successful `execute` run in terms of the main loop. -/
theorem execute_ok_iff (spawnOracle : Nat → Except String SpawnOutcome)
    (fsys : String → Option FileStat) (plan : CommandPlan) (options : ExecOptions)
    (res : CommandExecutionResult) :
    execute spawnOracle fsys plan options = .ok res ↔
      ∃ st, runSteps spawnOracle (options.dryRun.getD false) 0 plan.steps initialState = .ok st ∧
        res = { exitCode := st.lastExitCode
                timedOut := st.anyTimedOut
                stdout := st.aggregatedStdout
                stderr := st.aggregatedStderr
                resolvedOutputs :=
                  describeOutputs fsys options.cwd (collectOutputs plan.steps)
                    (match options.publicRoot with
                     | some s => if s = "" then none else some (resolvePath options.cwd s)
                     | none => none)
                dryRun := options.dryRun.getD false ||
                  (applyRetroSkipReasons st.encounteredFailure st.stepResults).all
                    (fun step => step.status ≠ .executed)
                steps := applyRetroSkipReasons st.encounteredFailure st.stepResults } := by
  constructor
  · intro h
    simp only [execute] at h
    cases hrs : runSteps spawnOracle (options.dryRun.getD false) 0 plan.steps initialState with
    | error e =>
      rw [hrs] at h
      cases h
    | ok st =>
      rw [hrs] at h
      simp only [Except.ok.injEq] at h
      exact ⟨st, rfl, h.symm⟩
  · rintro ⟨st, hst, rfl⟩
    unfold execute
    dsimp only
    rw [hst]

/-- Every step result of a successful `execute` run is well formed. -/
theorem execute_good (spawnOracle : Nat → Except String SpawnOutcome)
    (fsys : String → Option FileStat) (plan : CommandPlan) (options : ExecOptions)
    (res : CommandExecutionResult)
    (h : execute spawnOracle fsys plan options = .ok res) :
    ∀ r ∈ res.steps, goodStepResult r := by
  rcases (execute_ok_iff spawnOracle fsys plan options res).mp h with ⟨st, hst, rfl⟩
  have hgood : ∀ r ∈ st.stepResults, goodStepResult r := by
    refine runSteps_good spawnOracle (options.dryRun.getD false) plan.steps 0 initialState st hst ?_
    intro r hr
    simp [initialState] at hr
  intro r hr
  rw [applyRetroSkipReasons_eq_self _ _ (fun r' hr' h' => (hgood r' hr').1 h' |>.2.2.2.2)] at hr
  exact hgood r hr

end CommandExecutor

theorem lastExecutedStep_append_skipped (l : List CommandStepResult)
    (r : CommandStepResult) (h : r.status = .skipped) :
    lastExecutedStep (l ++ [r]) = lastExecutedStep l := by
  unfold lastExecutedStep
  rw [List.filter_append]
  have : (List.filter (fun r => decide (r.status = .executed)) [r]) = [] := by
    simp [List.filter, h]
  rw [this, List.append_nil]

theorem lastExecutedStep_append_executed (l : List CommandStepResult)
    (r : CommandStepResult) (h : r.status = .executed) :
    lastExecutedStep (l ++ [r]) = some r := by
  unfold lastExecutedStep
  rw [List.filter_append]
  have : (List.filter (fun r => decide (r.status = .executed)) [r]) = [r] := by
    simp [List.filter, h]
  rw [this]
  exact List.getLast?_concat _

/-- A loop iteration that records an executed step with `resolveSkipReason`
returning `none` preserves consistency, and so does a skip. -/
theorem runSteps_consistent (spawnOracle : Nat → Except String SpawnOutcome)
    (dryRun : Bool) :
    ∀ (steps : List CommandStepPlan) (i : Nat) (st st' : CommandExecutor.LoopState),
      CommandExecutor.runSteps spawnOracle dryRun i steps st = .ok st' →
      loopStateConsistent st → loopStateConsistent st' := by
  intro steps
  induction steps with
  | nil =>
    intro i st st' h hst
    simp only [CommandExecutor.runSteps] at h
    cases h
    exact hst
  | cons step rest ih =>
    intro i st st' h hst
    simp only [CommandExecutor.runSteps] at h
    cases hres : CommandExecutor.resolveSkipReason dryRun st.encounteredFailure step.command with
    | some reason =>
      rw [hres] at h
      refine ih (i + 1) _ st' h ?_
      unfold loopStateConsistent at hst ⊢
      rw [lastExecutedStep_append_skipped _ _ rfl]
      exact hst
    | none =>
      rw [hres] at h
      cases horacle : spawnOracle i with
      | error e =>
        rw [horacle] at h
        cases h
      | ok o =>
        rw [horacle] at h
        refine ih (i + 1) _ st' h ?_
        have hdry : dryRun = false := by
          by_contra hd
          rw [eq_true_of_ne_false hd] at hres
          simp [CommandExecutor.resolveSkipReason] at hres
        have henc : st.encounteredFailure = false := by
          by_contra he
          rw [hdry, eq_true_of_ne_false he] at hres
          simp [CommandExecutor.resolveSkipReason] at hres
        have hnt : st.anyTimedOut = false := by
          by_contra ht
          have := hst.2 (eq_true_of_ne_false ht)
          rw [henc] at this
          cases this
        unfold loopStateConsistent
        rw [CommandExecutor.recordExecuted,
          lastExecutedStep_append_executed _ _ rfl]
        refine ⟨⟨?_, rfl, ?_⟩, ?_⟩
        · rintro ⟨-, hfail | ⟨c, hc, hc0⟩⟩
          · simp only [CommandExecutor.createExecutedResult] at hfail
            simp [henc, hfail]
          · simp only [CommandExecutor.createExecutedResult] at hc
            simp only [henc, Bool.false_or]
            rcases ho : o.timedOut with _ | _
            · simp only [Bool.false_or]
              rw [hc]
              simp [hc0]
            · simp
        · simp [CommandExecutor.createExecutedResult, hnt]
        · intro ht
          simp only [hnt, Bool.false_or] at ht
          simp [henc, ht]

/-- Splitting the main loop at a list decomposition of the steps. -/
theorem runSteps_append (spawnOracle : Nat → Except String SpawnOutcome) (dryRun : Bool) :
    ∀ (xs ys : List CommandStepPlan) (i : Nat) (st : CommandExecutor.LoopState),
      CommandExecutor.runSteps spawnOracle dryRun i (xs ++ ys) st =
        match CommandExecutor.runSteps spawnOracle dryRun i xs st with
        | .error e => .error e
        | .ok st' => CommandExecutor.runSteps spawnOracle dryRun (i + xs.length) ys st' := by
  intro xs
  induction xs with
  | nil =>
    intro ys i st
    simp only [List.nil_append, CommandExecutor.runSteps, List.length_nil, Nat.add_zero]
  | cons x xs ih =>
    intro ys i st
    simp only [List.cons_append, CommandExecutor.runSteps]
    have hlen : i + 1 + xs.length = i + (x :: xs).length := by
      simp only [List.length_cons]
      omega
    cases hres : CommandExecutor.resolveSkipReason dryRun st.encounteredFailure x.command with
    | some reason =>
      dsimp only
      simp only [List.append_eq]
      rw [ih, hlen]
    | none =>
      dsimp only
      cases horacle : spawnOracle i with
      | error e => rfl
      | ok o =>
        dsimp only
        simp only [List.append_eq]
        rw [ih, hlen]

/-- The main loop only appends to the recorded results, one entry per
step. -/
theorem runSteps_extends (spawnOracle : Nat → Except String SpawnOutcome) (dryRun : Bool) :
    ∀ (steps : List CommandStepPlan) (i : Nat) (st st' : CommandExecutor.LoopState),
      CommandExecutor.runSteps spawnOracle dryRun i steps st = .ok st' →
      ∃ tail, st'.stepResults = st.stepResults ++ tail ∧ tail.length = steps.length := by
  intro steps
  induction steps with
  | nil =>
    intro i st st' h
    simp only [CommandExecutor.runSteps] at h
    cases h
    exact ⟨[], by simp, rfl⟩
  | cons x xs ih =>
    intro i st st' h
    simp only [CommandExecutor.runSteps] at h
    cases hres : CommandExecutor.resolveSkipReason dryRun st.encounteredFailure x.command with
    | some reason =>
      rw [hres] at h
      rcases ih _ _ _ h with ⟨tail, ht, hl⟩
      refine ⟨CommandExecutor.createSkippedResult x reason :: tail, ?_, by simp [hl]⟩
      rw [ht]
      simp
    | none =>
      rw [hres] at h
      cases horacle : spawnOracle i with
      | error e =>
        rw [horacle] at h
        cases h
      | ok o =>
        rw [horacle] at h
        rcases ih _ _ _ h with ⟨tail, ht, hl⟩
        refine ⟨CommandExecutor.createExecutedResult x (spawnExitCode o) o.stdout o.stderr
          o.timedOut :: tail, ?_, by simp [hl]⟩
        rw [ht]
        simp [CommandExecutor.recordExecuted]

/-- Once the failure flag is set (outside dry-run), the rest of the loop
skips every remaining step with `previous_step_failed`. -/
theorem runSteps_after_failure (spawnOracle : Nat → Except String SpawnOutcome) :
    ∀ (ys : List CommandStepPlan) (i : Nat) (st : CommandExecutor.LoopState),
      st.encounteredFailure = true →
      CommandExecutor.runSteps spawnOracle false i ys st =
        .ok { st with
              stepResults := st.stepResults ++
                ys.map fun s =>
                  CommandExecutor.createSkippedResult s .previous_step_failed } := by
  intro ys
  induction ys with
  | nil =>
    intro i st henc
    simp [CommandExecutor.runSteps]
  | cons y ys ih =>
    intro i st henc
    simp only [CommandExecutor.runSteps, CommandExecutor.resolveSkipReason, henc,
      Bool.false_eq_true, if_false, if_true]
    rw [ih (i + 1) _ (by simp [henc])]
    simp

theorem lastExecutedStep_getLast (l : List CommandStepResult) (r : CommandStepResult)
    (hl : l.getLast? = some r) (hr : r.status = .executed) :
    lastExecutedStep l = some r := by
  have hne : l ≠ [] := by
    rintro rfl
    cases hl
  have hdecomp : l = l.dropLast ++ [l.getLast hne] := (List.dropLast_append_getLast hne).symm
  have hgl : l.getLast hne = r := by
    have := List.getLast?_eq_getLast l hne
    rw [hl] at this
    exact (Option.some.injEq _ _ ▸ this).symm
  rw [hdecomp, hgl]
  exact lastExecutedStep_append_executed _ _ hr

/-! ## Claim C10 -/

/-- **C10**: in every result returned by `execute`, every step result with
status `skipped` has a null exit code, `timedOut` false, empty stdout and
stderr, and a defined `skipReason`; and every step result's status is
exactly one of `executed` or `skipped`. -/
theorem execute_step_result_invariants
    (spawnOracle : Nat → Except String SpawnOutcome) (fsys : String → Option FileStat)
    (plan : CommandPlan) (options : ExecOptions) (res : CommandExecutionResult)
    (h : CommandExecutor.execute spawnOracle fsys plan options = .ok res) :
    ∀ r ∈ res.steps,
      ((r.status = .executed ∨ r.status = .skipped) ∧
        ¬ (r.status = .executed ∧ r.status = .skipped)) ∧
      (r.status = .skipped →
        r.exitCode = none ∧ r.timedOut = false ∧ r.stdout = "" ∧ r.stderr = "" ∧
          r.skipReason.isSome) := by
  intro r hr
  have hgood := CommandExecutor.execute_good spawnOracle fsys plan options res h r hr
  refine ⟨⟨?_, ?_⟩, hgood.1⟩
  · cases hs : r.status with
    | executed => exact Or.inl rfl
    | skipped => exact Or.inr rfl
  · rintro ⟨h1, h2⟩
    rw [h1] at h2
    cases h2

/-- Witness for C10 at a concrete plan run against a concrete failing spawn
oracle. -/
theorem execute_step_result_invariants_witness :
    CommandExecutor.execute wSpawnFail0 wFsEmpty wPlanFF wOpts = .ok wResFail ∧
    ∀ r ∈ wResFail.steps,
      ((r.status = .executed ∨ r.status = .skipped) ∧
        ¬ (r.status = .executed ∧ r.status = .skipped)) ∧
      (r.status = .skipped →
        r.exitCode = none ∧ r.timedOut = false ∧ r.stdout = "" ∧ r.stderr = "" ∧
          r.skipReason.isSome) :=
  ⟨rfl, execute_step_result_invariants wSpawnFail0 wFsEmpty wPlanFF wOpts wResFail rfl⟩

/-! ## Trim idempotence -/

theorem dropWhile_eq_self_of_head (p : Char → Bool) (l : List Char)
    (h : ∀ c, l.head? = some c → p c = false) : l.dropWhile p = l := by
  cases l with
  | nil => rfl
  | cons c cs =>
    rw [List.dropWhile_cons_of_neg]
    simp [h c rfl]

theorem head?_dropWhile_false (p : Char → Bool) (l : List Char) (c : Char)
    (h : (l.dropWhile p).head? = some c) : p c = false := by
  induction l with
  | nil => cases h
  | cons a as ih =>
    by_cases ha : p a
    · rw [List.dropWhile_cons_of_pos ha] at h
      exact ih h
    · rw [List.dropWhile_cons_of_neg ha] at h
      cases h
      simpa using ha

theorem getLast?_dropWhile (p : Char → Bool) :
    ∀ l : List Char, l.dropWhile p ≠ [] → (l.dropWhile p).getLast? = l.getLast? := by
  intro l
  induction l with
  | nil =>
    intro h
    exact absurd rfl h
  | cons a as ih =>
    intro hne
    by_cases ha : p a
    · rw [List.dropWhile_cons_of_pos ha] at hne ⊢
      rw [ih hne]
      cases as with
      | nil => exact absurd (by simp) hne
      | cons b bs => rw [List.getLast?_cons_cons]
    · rw [List.dropWhile_cons_of_neg ha]

/-- JavaScript `trim` is idempotent. -/
theorem jsTrim_idem (s : String) : jsTrim (jsTrim s) = jsTrim s := by
  unfold jsTrim
  congr 1
  show jsTrimChars (jsTrimChars s.data) = jsTrimChars s.data
  unfold jsTrimChars dropLeadingSpace
  set A := s.data.reverse.dropWhile jsIsSpace with hA
  set R := A.reverse.dropWhile jsIsSpace with hR
  have hR1 : R.reverse.dropWhile jsIsSpace = R.reverse := by
    refine dropWhile_eq_self_of_head _ _ ?_
    intro c hc
    rw [List.head?_reverse] at hc
    have hRne : R ≠ [] := by
      rintro hcontra
      rw [hcontra] at hc
      cases hc
    have hc' : A.reverse.getLast? = some c := by
      rw [← getLast?_dropWhile jsIsSpace A.reverse (hR ▸ hRne)]
      rw [← hR]
      exact hc
    rw [List.getLast?_reverse] at hc'
    exact head?_dropWhile_false jsIsSpace s.data.reverse c hc'
  rw [hR1, List.reverse_reverse]
  exact List.dropWhile_idempotent _ _

/-! ## Validator re-validation lemmas -/

theorem resolvePath_ne_empty (cwd p : String) : resolvePath cwd p ≠ "" := by
  intro h
  have hd := congrArg String.data h
  simp only [resolvePath, joinAbs] at hd
  cases hd

theorem filterMap_asString_map_str (l : List String) :
    (l.map JValue.str).filterMap JValue.asString = l := by
  induction l with
  | nil => rfl
  | cons a as ih => simp [List.filterMap_cons, JValue.asString, ih]

theorem all_asString_isSome_map_str (l : List String) :
    (l.map JValue.str).all (fun a => a.asString.isSome) = true := by
  induction l with
  | nil => rfl
  | cons a as ih => simp [JValue.asString, ih]

theorem normalizeOptionalField_some (x : JValue) (v : String)
    (h : PlanValidator.normalizeOptionalField x = some v) :
    jsTrim v = v ∧ v ≠ "" := by
  unfold PlanValidator.normalizeOptionalField at h
  cases hx : x.asString with
  | none =>
    rw [hx] at h
    cases h
  | some u =>
    rw [hx] at h
    dsimp only at h
    by_cases hu : jsTrim u ≠ ""
    · rw [if_pos hu] at h
      cases h
      exact ⟨jsTrim_idem u, hu⟩
    · rw [if_neg hu] at h
      cases h

theorem normalizeOptionalField_reval (x : Option String)
    (hx : ∀ v, x = some v → jsTrim v = v ∧ v ≠ "") :
    PlanValidator.normalizeOptionalField (x.elim JValue.undef JValue.str) = x := by
  cases x with
  | none => rfl
  | some v =>
    rcases hx v rfl with ⟨ht, hne⟩
    unfold PlanValidator.normalizeOptionalField
    simp [JValue.asString, ht, hne]

theorem step_toJValue_field_id (s : CommandStepPlan) :
    s.toJValue.getFieldD "id" = s.id.elim JValue.undef JValue.str := by
  rcases s with ⟨c, a, r, o, id, t, n⟩
  cases id <;> cases t <;> cases n <;> rfl

theorem step_toJValue_field_title (s : CommandStepPlan) :
    s.toJValue.getFieldD "title" = s.title.elim JValue.undef JValue.str := by
  rcases s with ⟨c, a, r, o, id, t, n⟩
  cases id <;> cases t <;> cases n <;> rfl

theorem step_toJValue_field_note (s : CommandStepPlan) :
    s.toJValue.getFieldD "note" = s.note.elim JValue.undef JValue.str := by
  rcases s with ⟨c, a, r, o, id, t, n⟩
  cases id <;> cases t <;> cases n <;> rfl

/-- Re-validating a validated output (with a trim-stable path) succeeds and
is the identity. -/
theorem validateOutput_revalidate (cwd dir : String) (raw : JValue)
    (i j i' j' : Nat) (o : CommandOutputPlan)
    (hok : PlanValidator.validateOutput cwd raw i j dir = .ok o)
    (htrim : jsTrim o.path = o.path) :
    PlanValidator.validateOutput cwd o.toJValue i' j' dir = .ok o := by
  unfold PlanValidator.validateOutput at hok
  split at hok
  · cases hok
  · cases hpath : (raw.getFieldD "path").asString with
    | none =>
      rw [hpath] at hok
      simp at hok
    | some v =>
      rw [hpath] at hok
      dsimp only at hok
      by_cases hv : jsTrim v = ""
      · rw [if_pos hv] at hok
        cases hok
      · rw [if_neg hv] at hok
        by_cases hesc : (jsStartsWith (relativePath cwd dir (resolvePath cwd (jsTrim v))) ".." ||
            isAbsolutePath (relativePath cwd dir (resolvePath cwd (jsTrim v)))) = true
        · rw [if_pos hesc] at hok
          cases hok
        · rw [if_neg hesc] at hok
          have ho := Except.ok.inj hok
          unfold PlanValidator.validateOutput
          rw [if_neg (by simp [CommandOutputPlan.toJValue, JValue.isObjectLike])]
          have hfield : (o.toJValue.getFieldD "path").asString = some o.path := rfl
          rw [hfield]
          dsimp only
          rw [htrim]
          have hpne : ¬ o.path = "" := by
            rw [← ho]
            exact resolvePath_ne_empty cwd _
          rw [if_neg hpne]
          have hidem : resolvePath cwd o.path = o.path := by
            rw [← ho]
            exact resolvePath_idem cwd _
          rw [hidem]
          have hesc' : ¬ (jsStartsWith (relativePath cwd dir o.path) ".." ||
              isAbsolutePath (relativePath cwd dir o.path)) = true := by
            have hop : o.path = resolvePath cwd (jsTrim v) := by rw [← ho]
            rw [hop]
            exact hesc
          rw [if_neg hesc']
          have hdesc : ((o.toJValue.getFieldD "description").asString).getD "" =
              o.description := rfl
          rw [hdesc]

/-- Inversion for `validateOutputs`: lengths and per-output provenance. -/
theorem validateOutputs_inv (cwd dir : String) (i : Nat) :
    ∀ (items : List JValue) (j : Nat) (os : List CommandOutputPlan),
      PlanValidator.validateOutputs cwd i dir j items = .ok os →
      os.length = items.length ∧
      ∀ o ∈ os, ∃ raw j', PlanValidator.validateOutput cwd raw i j' dir = .ok o := by
  intro items
  induction items with
  | nil =>
    intro j os h
    simp only [PlanValidator.validateOutputs] at h
    cases h
    exact ⟨rfl, by simp⟩
  | cons item rest ih =>
    intro j os h
    simp only [PlanValidator.validateOutputs] at h
    cases h1 : PlanValidator.validateOutput cwd item i j dir with
    | error e =>
      rw [h1] at h
      cases h
    | ok o =>
      rw [h1] at h
      cases h2 : PlanValidator.validateOutputs cwd i dir (j + 1) rest with
      | error e =>
        rw [h2] at h
        cases h
      | ok os' =>
        rw [h2] at h
        cases h
        rcases ih (j + 1) os' h2 with ⟨hlen, hmem⟩
        refine ⟨by simp [hlen], ?_⟩
        intro o' ho'
        rcases List.mem_cons.mp ho' with rfl | ho'
        · exact ⟨item, j, h1⟩
        · exact hmem o' ho'

/-- Re-validating a list of validated outputs is the identity. -/
theorem validateOutputs_revalidate (cwd dir : String) (i i' : Nat) :
    ∀ (os : List CommandOutputPlan) (j' : Nat),
      (∀ o ∈ os, ∃ raw j0, PlanValidator.validateOutput cwd raw i j0 dir = .ok o) →
      (∀ o ∈ os, jsTrim o.path = o.path) →
      PlanValidator.validateOutputs cwd i' dir j' (os.map CommandOutputPlan.toJValue) =
        .ok os := by
  intro os
  induction os with
  | nil =>
    intro j' _ _
    rfl
  | cons o os ih =>
    intro j' hprev htrim
    rcases hprev o (List.mem_cons_self o os) with ⟨raw, j0, hok⟩
    simp only [List.map_cons, PlanValidator.validateOutputs]
    rw [validateOutput_revalidate cwd dir raw i j0 i' j' o hok
      (htrim o (List.mem_cons_self o os))]
    rw [ih (j' + 1) (fun o' h => hprev o' (List.mem_cons_of_mem o h))
      (fun o' h => htrim o' (List.mem_cons_of_mem o h))]

/-- Re-validating a validated step is the identity. -/
theorem validateStep_revalidate (registry : ToolRegistry) (cwd dir : String)
    (raw : JValue) (i i' : Nat) (s : CommandStepPlan)
    (hok : PlanValidator.validateStep registry cwd raw i dir = .ok s)
    (htrim : ∀ o ∈ s.outputs, jsTrim o.path = o.path) :
    PlanValidator.validateStep registry cwd s.toJValue i' dir = .ok s := by
  unfold PlanValidator.validateStep at hok
  split at hok
  · cases hok
  · dsimp only at hok
    cases hcmd : (raw.getFieldD "command").asString with
    | none =>
      rw [hcmd] at hok
      cases hok
    | some c =>
      rw [hcmd] at hok
      dsimp only at hok
      by_cases hhas : ¬ registry.hasCommand c
      · rw [if_pos hhas] at hok
        cases hok
      · rw [if_neg hhas] at hok
        cases hargs : (raw.getFieldD "arguments").asArray with
        | none =>
          rw [hargs] at hok
          cases hok
        | some items =>
          rw [hargs] at hok
          dsimp only at hok
          by_cases hall : ¬ items.all (fun a => a.asString.isSome)
          · rw [if_pos hall] at hok
            cases hok
          · rw [if_neg hall] at hok
            cases houts : PlanValidator.validateOutputs cwd i dir 0
                (((raw.getFieldD "outputs").asArray).getD []) with
            | error e =>
              rw [houts] at hok
              cases hok
            | ok outs =>
              rw [houts] at hok
              have hs := Except.ok.inj hok
              have hcmd' : s.command = c := by rw [← hs]
              have hargs' : s.arguments = items.filterMap JValue.asString := by rw [← hs]
              have houts' : s.outputs = outs := by rw [← hs]
              unfold PlanValidator.validateStep
              rw [if_neg (by simp [CommandStepPlan.toJValue, JValue.isObjectLike])]
              dsimp only
              have hf1 : (s.toJValue.getFieldD "command").asString = some s.command := by
                rcases s with ⟨c', a', r', o', id', t', n'⟩
                cases id' <;> cases t' <;> cases n' <;> rfl
              rw [hf1]
              dsimp only
              rw [if_neg (by rw [hcmd']; exact hhas)]
              have hf2 : (s.toJValue.getFieldD "arguments").asArray =
                  some (s.arguments.map JValue.str) := by
                rcases s with ⟨c', a', r', o', id', t', n'⟩
                cases id' <;> cases t' <;> cases n' <;> rfl
              rw [hf2]
              dsimp only
              rw [if_neg (by simp [all_asString_isSome_map_str])]
              have hf3 : ((s.toJValue.getFieldD "outputs").asArray).getD [] =
                  s.outputs.map CommandOutputPlan.toJValue := by
                rcases s with ⟨c', a', r', o', id', t', n'⟩
                cases id' <;> cases t' <;> cases n' <;> rfl
              rw [hf3]
              rcases validateOutputs_inv cwd dir i _ 0 outs houts with ⟨-, hprov⟩
              rw [validateOutputs_revalidate cwd dir i i' s.outputs 0
                (by rw [houts']; exact fun o ho => hprov o ho) htrim]
              have hf4 : ((s.toJValue.getFieldD "reasoning").asString).getD "" =
                  s.reasoning := by
                rcases s with ⟨c', a', r', o', id', t', n'⟩
                cases id' <;> cases t' <;> cases n' <;> rfl
              have hid : PlanValidator.normalizeOptionalField (s.toJValue.getFieldD "id") =
                  s.id := by
                rw [step_toJValue_field_id]
                refine normalizeOptionalField_reval s.id ?_
                intro v hv
                refine normalizeOptionalField_some (raw.getFieldD "id") v ?_
                rw [← hv, ← hs]
              have htitle : PlanValidator.normalizeOptionalField
                  (s.toJValue.getFieldD "title") = s.title := by
                rw [step_toJValue_field_title]
                refine normalizeOptionalField_reval s.title ?_
                intro v hv
                refine normalizeOptionalField_some (raw.getFieldD "title") v ?_
                rw [← hv, ← hs]
              have hnote : PlanValidator.normalizeOptionalField
                  (s.toJValue.getFieldD "note") = s.note := by
                rw [step_toJValue_field_note]
                refine normalizeOptionalField_reval s.note ?_
                intro v hv
                refine normalizeOptionalField_some (raw.getFieldD "note") v ?_
                rw [← hv, ← hs]
              rw [hf4, hid, htitle, hnote]
              rw [filterMap_asString_map_str]

/-- Inversion for `validateSteps`: lengths and per-step provenance. -/
theorem validateSteps_inv (registry : ToolRegistry) (cwd dir : String) :
    ∀ (items : List JValue) (i : Nat) (ss : List CommandStepPlan),
      PlanValidator.validateSteps registry cwd dir i items = .ok ss →
      ss.length = items.length ∧
      ∀ s ∈ ss, ∃ raw i', PlanValidator.validateStep registry cwd raw i' dir = .ok s := by
  intro items
  induction items with
  | nil =>
    intro i ss h
    simp only [PlanValidator.validateSteps] at h
    cases h
    exact ⟨rfl, by simp⟩
  | cons item rest ih =>
    intro i ss h
    simp only [PlanValidator.validateSteps] at h
    cases h1 : PlanValidator.validateStep registry cwd item i dir with
    | error e =>
      rw [h1] at h
      cases h
    | ok s =>
      rw [h1] at h
      cases h2 : PlanValidator.validateSteps registry cwd dir (i + 1) rest with
      | error e =>
        rw [h2] at h
        cases h
      | ok ss' =>
        rw [h2] at h
        cases h
        rcases ih (i + 1) ss' h2 with ⟨hlen, hmem⟩
        refine ⟨by simp [hlen], ?_⟩
        intro s' hs'
        rcases List.mem_cons.mp hs' with rfl | hs'
        · exact ⟨item, i, h1⟩
        · exact hmem s' hs'

/-- Re-validating a list of validated steps is the identity. -/
theorem validateSteps_revalidate (registry : ToolRegistry) (cwd dir : String) :
    ∀ (ss : List CommandStepPlan) (i' : Nat),
      (∀ s ∈ ss, ∃ raw i0, PlanValidator.validateStep registry cwd raw i0 dir = .ok s) →
      (∀ s ∈ ss, ∀ o ∈ s.outputs, jsTrim o.path = o.path) →
      PlanValidator.validateSteps registry cwd dir i' (ss.map CommandStepPlan.toJValue) =
        .ok ss := by
  intro ss
  induction ss with
  | nil =>
    intro i' _ _
    rfl
  | cons s ss ih =>
    intro i' hprev htrim
    rcases hprev s (List.mem_cons_self s ss) with ⟨raw, i0, hok⟩
    simp only [List.map_cons, PlanValidator.validateSteps]
    rw [validateStep_revalidate registry cwd dir raw i0 i' s hok
      (htrim s (List.mem_cons_self s ss))]
    rw [ih (i' + 1) (fun s' h => hprev s' (List.mem_cons_of_mem s h))
      (fun s' h => htrim s' (List.mem_cons_of_mem s h))]

/-! ## Claim C3 -/

/-- **C3** counterexample: with `outputDir = "/tmp/out"`, the declared
output path `"/tmp/out/..foo"` resolves to a descendant of the resolved
output directory, yet `validateOutput` rejects it, because the Node
relative path `"..foo"` starts with `".."`; so "throws iff not a
descendant" is false. -/
theorem validateOutput_descendant_iff_counterexample :
    isPathDescendant (resolvePath "/" "/tmp/out") (resolvePath "/" "/tmp/out/..foo") ∧
    (PlanValidator.validateOutput "/"
      (.obj [("path", .str "/tmp/out/..foo"), ("description", .str "d")]) 0 0
      (resolvePath "/" "/tmp/out")).isOk = false := by
  constructor
  · decide
  · decide

/-- **C3** (amended): for every declared output object whose `path` field is
a string that is nonempty after trimming, `validateOutput` throws iff the
resolved absolute form of the path is not a descendant of the resolved
output directory **or** its first path segment below that directory itself
begins with `".."` (e.g. `"/tmp/out/..foo"`); with `outputDir "/tmp/out"`
the path `"../../etc/passwd"` is rejected and `"/tmp/out/sub/file.png"` is
accepted. -/
theorem validateOutput_escape_iff (cwd outputDir : String) (rawOutput : JValue)
    (stepIndex outputIndex : Nat) (s : String)
    (hobj : rawOutput.isObjectLike = true)
    (hpath : (rawOutput.getFieldD "path").asString = some s)
    (hne : jsTrim s ≠ "") :
    (PlanValidator.validateOutput cwd rawOutput stepIndex outputIndex
        (resolvePath cwd outputDir)).isOk = false ↔
      (¬ isPathDescendant (resolvePath cwd outputDir) (resolvePath cwd (jsTrim s)) ∨
        ∃ h, firstSegBelow (resolvePath cwd outputDir) (resolvePath cwd (jsTrim s)) = some h ∧
          ['.', '.'].isPrefixOf h = true) := by
  have hF : ∀ seg ∈ resolveSegs (normSegsAux [] (splitSlash cwd.data)) outputDir.data,
      goodSeg seg := resolveSegs_good _ _ (cwdSegs_good cwd)
  have hT : ∀ seg ∈ resolveSegs (normSegsAux [] (splitSlash cwd.data)) (jsTrim s).data,
      goodSeg seg := resolveSegs_good _ _ (cwdSegs_good cwd)
  rcases relativePath_escape_test cwd
      (resolveSegs (normSegsAux [] (splitSlash cwd.data)) outputDir.data)
      (resolveSegs (normSegsAux [] (splitSlash cwd.data)) (jsTrim s).data) hF hT with
    ⟨hiff, habs⟩
  rw [show joinAbs (resolveSegs (normSegsAux [] (splitSlash cwd.data)) outputDir.data) =
        resolvePath cwd outputDir from rfl,
      show joinAbs (resolveSegs (normSegsAux [] (splitSlash cwd.data)) (jsTrim s).data) =
        resolvePath cwd (jsTrim s) from rfl] at hiff habs
  have hsplitF : splitSlash (resolvePath cwd outputDir).data =
      resolveSegs (normSegsAux [] (splitSlash cwd.data)) outputDir.data :=
    splitSlash_joinAbs _ (fun seg hseg => ⟨(hF seg hseg).1, (hF seg hseg).2.1⟩)
  have hsplitT : splitSlash (resolvePath cwd (jsTrim s)).data =
      resolveSegs (normSegsAux [] (splitSlash cwd.data)) (jsTrim s).data :=
    splitSlash_joinAbs _ (fun seg hseg => ⟨(hT seg hseg).1, (hT seg hseg).2.1⟩)
  unfold PlanValidator.validateOutput
  rw [hobj]
  simp only [Bool.not_true, Bool.false_eq_true, if_false, hpath]
  rw [if_neg hne]
  have hcond : (jsStartsWith (relativePath cwd (resolvePath cwd outputDir)
      (resolvePath cwd (jsTrim s))) ".." || isAbsolutePath (relativePath cwd
      (resolvePath cwd outputDir) (resolvePath cwd (jsTrim s)))) =
      jsStartsWith (relativePath cwd (resolvePath cwd outputDir)
        (resolvePath cwd (jsTrim s))) ".." := by
    rw [habs]
    simp
  rw [hcond]
  by_cases hc : jsStartsWith (relativePath cwd (resolvePath cwd outputDir)
      (resolvePath cwd (jsTrim s))) ".." = true
  · rw [if_pos hc]
    constructor
    · intro _
      rcases hiff.mp hc with h | ⟨h, hs, hdrop, hpre⟩
      · left
        unfold isPathDescendant
        rw [hsplitF, hsplitT]
        exact h
      · right
        refine ⟨h, ?_, hpre⟩
        unfold firstSegBelow
        rw [hsplitF, hsplitT, hdrop]
        rfl
    · intro _
      rfl
  · rw [if_neg hc]
    constructor
    · intro hok
      cases hok
    · intro hrhs
      exfalso
      refine hc (hiff.mpr ?_)
      rcases hrhs with h | ⟨h, hhead, hpre⟩
      · left
        unfold isPathDescendant at h
        rw [hsplitF, hsplitT] at h
        exact h
      · right
        unfold firstSegBelow at hhead
        rw [hsplitF, hsplitT] at hhead
        rcases List.head?_eq_some_iff.mp hhead with ⟨hs, hdrop⟩
        exact ⟨h, hs, hdrop, hpre⟩

/-- Witness for the amended C3, exercising both outcomes of the iff: the
in-directory path `"/tmp/out/sub/file.png"` is accepted (neither disjunct
holds), and the spec's concrete escape `"../../etc/passwd"` is rejected
under working directory `"/"`. -/
theorem validateOutput_escape_iff_witness :
    ((JValue.obj [("path", .str "/tmp/out/sub/file.png"), ("description", .str "d")]).isObjectLike = true) ∧
    (((JValue.obj [("path", .str "/tmp/out/sub/file.png"), ("description", .str "d")]).getFieldD
      "path").asString = some "/tmp/out/sub/file.png") ∧
    (jsTrim "/tmp/out/sub/file.png" ≠ "") ∧
    ((PlanValidator.validateOutput "/"
        (.obj [("path", .str "/tmp/out/sub/file.png"), ("description", .str "d")]) 0 0
        (resolvePath "/" "/tmp/out")).isOk = false ↔
      (¬ isPathDescendant (resolvePath "/" "/tmp/out")
          (resolvePath "/" (jsTrim "/tmp/out/sub/file.png")) ∨
        ∃ h, firstSegBelow (resolvePath "/" "/tmp/out")
            (resolvePath "/" (jsTrim "/tmp/out/sub/file.png")) = some h ∧
          ['.', '.'].isPrefixOf h = true)) ∧
    (PlanValidator.validateOutput "/"
      (.obj [("path", .str "/tmp/out/sub/file.png"), ("description", .str "d")]) 0 0
      (resolvePath "/" "/tmp/out")).isOk = true ∧
    (PlanValidator.validateOutput "/"
      (.obj [("path", .str "../../etc/passwd"), ("description", .str "d")]) 0 0
      (resolvePath "/" "/tmp/out")).isOk = false :=
  ⟨rfl, rfl, by decide,
    validateOutput_escape_iff "/" "/tmp/out"
      (.obj [("path", .str "/tmp/out/sub/file.png"), ("description", .str "d")])
      0 0 "/tmp/out/sub/file.png" rfl rfl (by decide),
    by decide, by decide⟩

/-! ## Claim C7 -/

/-- **C7** counterexample: validating `c7RawPlan` (whose output path
`"/tmp/out/a /."` resolves to `"/tmp/out/a "`, with a trailing space)
succeeds, but re-validating the result trims the stored path again and
returns a different plan — validation is not idempotent as claimed. -/
theorem validate_idempotent_counterexample :
    PlanValidator.validate ToolRegistry.createDefault "/" c7RawPlan "/tmp/out" =
      .ok c7First ∧
    PlanValidator.validate ToolRegistry.createDefault "/" c7First.toJValue "/tmp/out" =
      .ok c7Second ∧
    c7First ≠ c7Second := by
  refine ⟨rfl, rfl, ?_⟩
  decide

/-- **C7** (amended): re-validating a validated plan with the same output
directory succeeds and returns the identical plan, provided no validated
output path carries trailing whitespace (paths such as `"/tmp/out/a "`,
produced by normalizing `"/tmp/out/a /."`, are trimmed again by the second
pass and drift). -/
theorem validate_revalidate (registry : ToolRegistry) (cwd outputDir : String)
    (raw : JValue) (p : CommandPlan)
    (hok : PlanValidator.validate registry cwd raw outputDir = .ok p)
    (htrim : ∀ s ∈ p.steps, ∀ o ∈ s.outputs, jsTrim o.path = o.path) :
    PlanValidator.validate registry cwd p.toJValue outputDir = .ok p := by
  unfold PlanValidator.validate at hok
  split at hok
  · cases hok
  · split at hok
    · cases hok
    · next hdir =>
      cases hsteps : (raw.getFieldD "steps").asArray with
      | none =>
        rw [hsteps] at hok
        cases hok
      | some items =>
        rw [hsteps] at hok
        dsimp only at hok
        by_cases hlen : items.length = 0
        · rw [if_pos hlen] at hok
          cases hok
        · rw [if_neg hlen] at hok
          cases hvs : PlanValidator.validateSteps registry cwd
              (resolvePath cwd outputDir) 0 items with
          | error e =>
            rw [hvs] at hok
            cases hok
          | ok steps =>
            rw [hvs] at hok
            have hp := Except.ok.inj hok
            have hpsteps : p.steps = steps := by rw [← hp]
            rcases validateSteps_inv registry cwd (resolvePath cwd outputDir)
              items 0 steps hvs with ⟨hslen, hprov⟩
            unfold PlanValidator.validate
            rw [if_neg (by simp [CommandPlan.toJValue, JValue.isObjectLike])]
            rw [if_neg hdir]
            have hf1 : (p.toJValue.getFieldD "steps").asArray =
                some (p.steps.map CommandStepPlan.toJValue) := rfl
            rw [hf1]
            dsimp only
            rw [if_neg (by
              rw [List.length_map, hpsteps, hslen]
              exact hlen)]
            rw [validateSteps_revalidate registry cwd (resolvePath cwd outputDir)
              p.steps 0 (by rw [hpsteps]; exact hprov) htrim]
            have hf2 : ((p.toJValue.getFieldD "overview").asString).getD "" =
                p.overview := rfl
            have hf3 : ((p.toJValue.getFieldD "followUp").asString).getD "" =
                p.followUp := rfl
            rw [hf2, hf3]

/-- Witness for the amended C7: a validated plan with a clean output path
re-validates to itself. -/
theorem validate_revalidate_witness :
    PlanValidator.validate ToolRegistry.createDefault "/" c7GoodRawPlan "/tmp/out" =
      .ok c7GoodFirst ∧
    (∀ s ∈ c7GoodFirst.steps, ∀ o ∈ s.outputs, jsTrim o.path = o.path) ∧
    PlanValidator.validate ToolRegistry.createDefault "/" c7GoodFirst.toJValue "/tmp/out" =
      .ok c7GoodFirst :=
  ⟨rfl, by decide,
    validate_revalidate ToolRegistry.createDefault "/" "/tmp/out" c7GoodRawPlan
      c7GoodFirst rfl (by decide)⟩

/-! ## Claim C4 -/

/-- **C4**: in a non-dry run, if the step at 0-indexed position `n` executed
and failed (timed out or exited nonzero) and is not the last step, then
every later step of the returned result is skipped with reason
`previous_step_failed`, and the results recorded for the earlier steps are
exactly what executing only those earlier steps would have recorded
(they are unchanged by the failure). -/
theorem failed_step_skips_rest
    (spawnOracle : Nat → Except String SpawnOutcome) (fsys : String → Option FileStat)
    (plan : CommandPlan) (options : ExecOptions) (res : CommandExecutionResult)
    (n : Nat) (r : CommandStepResult)
    (hdry : options.dryRun.getD false = false)
    (h : CommandExecutor.execute spawnOracle fsys plan options = .ok res)
    (hn : res.steps[n]? = some r)
    (hfail : failedStepResult r)
    (hlt : n + 1 < res.steps.length) :
    (∀ j r', n < j → res.steps[j]? = some r' →
      r'.status = .skipped ∧ r'.skipReason = some .previous_step_failed) ∧
    ∃ res', CommandExecutor.execute spawnOracle fsys
        { plan with steps := plan.steps.take n } options = .ok res' ∧
      res'.steps = res.steps.take n := by
  rcases (CommandExecutor.execute_ok_iff spawnOracle fsys plan options res).mp h with
    ⟨st, hst, rfl⟩
  rw [hdry] at hst
  have hgood : ∀ r ∈ st.stepResults, goodStepResult r := by
    refine CommandExecutor.runSteps_good spawnOracle false
      plan.steps 0 CommandExecutor.initialState st hst ?_
    intro r hr
    simp [CommandExecutor.initialState] at hr
  have hid : CommandExecutor.applyRetroSkipReasons st.encounteredFailure st.stepResults =
      st.stepResults :=
    CommandExecutor.applyRetroSkipReasons_eq_self _ _
      (fun r hr hs => ((hgood r hr).1 hs).2.2.2.2)
  dsimp only at hn hlt ⊢
  rw [hid] at hn hlt ⊢
  -- the full run records exactly one result per step
  rcases runSteps_extends spawnOracle false plan.steps 0 CommandExecutor.initialState st hst
    with ⟨tailF, htF, hlF⟩
  simp only [CommandExecutor.initialState, List.nil_append] at htF
  have hlenF : st.stepResults.length = plan.steps.length := by rw [htF, hlF]
  have hnlt : n + 1 < plan.steps.length := by rw [← hlenF]; exact hlt
  -- split the run after step n
  have hsplit0 := runSteps_append spawnOracle false (plan.steps.take n) (plan.steps.drop n)
    0 CommandExecutor.initialState
  rw [List.take_append_drop, hst] at hsplit0
  -- split the run after step n + 1
  have hsplit1 := runSteps_append spawnOracle false (plan.steps.take (n + 1))
    (plan.steps.drop (n + 1)) 0 CommandExecutor.initialState
  rw [List.take_append_drop, hst] at hsplit1
  cases hpre1 : CommandExecutor.runSteps spawnOracle false 0 (plan.steps.take (n + 1))
      CommandExecutor.initialState with
  | error e =>
    rw [hpre1] at hsplit1
    cases hsplit1
  | ok st₁ =>
  rw [hpre1] at hsplit1
  -- the state after step n holds the first n + 1 results
  rcases runSteps_extends spawnOracle false (plan.steps.take (n + 1)) 0
      CommandExecutor.initialState st₁ hpre1 with ⟨tail₁, ht₁, hl₁⟩
  simp only [CommandExecutor.initialState, List.nil_append] at ht₁
  have hlen₁ : st₁.stepResults.length = n + 1 := by
    rw [ht₁, hl₁, List.length_take]
    omega
  rcases runSteps_extends spawnOracle false (plan.steps.drop (n + 1))
      (0 + (plan.steps.take (n + 1)).length) st₁ st hsplit1.symm with ⟨tail₂, ht₂, _⟩
  -- the n-th result is the last result recorded by the prefix run
  have hn₁ : st₁.stepResults[n]? = some r := by
    rw [ht₂, List.getElem?_append_left (by omega)] at hn
    exact hn
  have hlast₁ : st₁.stepResults.getLast? = some r := by
    rw [List.getLast?_eq_getElem?, hlen₁]
    simpa using hn₁
  -- it failed, so the failure flag is set after step n
  have hcons₁ : loopStateConsistent st₁ := by
    refine runSteps_consistent spawnOracle false (plan.steps.take (n + 1)) 0
      CommandExecutor.initialState st₁ hpre1 ?_
    constructor
    · simp [lastExecutedStep, CommandExecutor.initialState]
    · intro ht
      simp [CommandExecutor.initialState] at ht
  have henc₁ : st₁.encounteredFailure = true := by
    have hle := lastExecutedStep_getLast _ _ hlast₁ hfail.1
    have h1 := hcons₁.1
    rw [hle] at h1
    exact h1.1 hfail
  -- hence the rest of the run is the mapped skip results
  have hafter := runSteps_after_failure spawnOracle (plan.steps.drop (n + 1))
    (0 + (plan.steps.take (n + 1)).length) st₁ henc₁
  have hseq : st.stepResults = st₁.stepResults ++
      (plan.steps.drop (n + 1)).map
        (fun s => CommandExecutor.createSkippedResult s .previous_step_failed) := by
    have := hsplit1.trans hafter
    have := Except.ok.inj this
    rw [this]
  constructor
  · intro j r' hj hj'
    rw [hseq, List.getElem?_append_right (by omega)] at hj'
    rw [List.getElem?_map] at hj'
    cases hs : (plan.steps.drop (n + 1))[j - st₁.stepResults.length]? with
    | none =>
      rw [hs] at hj'
      cases hj'
    | some s =>
      rw [hs] at hj'
      cases hj'
      constructor
      · rfl
      · rfl
  · -- the prefix run is exactly what executing the truncated plan records
    cases hpre0 : CommandExecutor.runSteps spawnOracle false 0 (plan.steps.take n)
        CommandExecutor.initialState with
    | error e =>
      rw [hpre0] at hsplit0
      cases hsplit0
    | ok st₀ =>
    rw [hpre0] at hsplit0
    rcases runSteps_extends spawnOracle false (plan.steps.take n) 0
        CommandExecutor.initialState st₀ hpre0 with ⟨tail₀, ht₀, hl₀⟩
    simp only [CommandExecutor.initialState, List.nil_append] at ht₀
    have hlen₀ : st₀.stepResults.length = n := by
      rw [ht₀, hl₀, List.length_take]
      omega
    rcases runSteps_extends spawnOracle false (plan.steps.drop n)
        (0 + (plan.steps.take n).length) st₀ st hsplit0.symm with ⟨tail₃, ht₃, _⟩
    have hgood₀ : ∀ r ∈ st₀.stepResults, goodStepResult r := by
      refine CommandExecutor.runSteps_good spawnOracle false
        (plan.steps.take n) 0 CommandExecutor.initialState st₀ hpre0 ?_
      intro r hr
      simp [CommandExecutor.initialState] at hr
    have hid₀ : CommandExecutor.applyRetroSkipReasons st₀.encounteredFailure st₀.stepResults =
        st₀.stepResults :=
      CommandExecutor.applyRetroSkipReasons_eq_self _ _
        (fun r hr hs => ((hgood₀ r hr).1 hs).2.2.2.2)
    refine ⟨_, (CommandExecutor.execute_ok_iff spawnOracle fsys
      { plan with steps := plan.steps.take n } options _).mpr ⟨st₀, by rw [hdry]; exact hpre0, rfl⟩, ?_⟩
    dsimp only
    rw [hid₀, ht₃, List.take_left' hlen₀]

/-- Witness for C4: a three-step run whose middle step exits 2; the last
step is skipped with `previous_step_failed` and the first step's recorded
result equals that of running the one-step prefix plan alone. -/
theorem failed_step_skips_rest_witness :
    CommandExecutor.execute wSpawnFailAt1 wFsEmpty wPlan3 wOpts = .ok wRes3 ∧
    wOpts.dryRun.getD false = false ∧
    wRes3.steps[1]? = some wRes3Step1 ∧
    failedStepResult wRes3Step1 ∧
    1 + 1 < wRes3.steps.length ∧
    ((∀ j r', 1 < j → wRes3.steps[j]? = some r' →
        r'.status = .skipped ∧ r'.skipReason = some .previous_step_failed) ∧
      ∃ res', CommandExecutor.execute wSpawnFailAt1 wFsEmpty
          { wPlan3 with steps := wPlan3.steps.take 1 } wOpts = .ok res' ∧
        res'.steps = wRes3.steps.take 1) :=
  ⟨rfl, rfl, rfl, ⟨rfl, Or.inr ⟨2, rfl, by decide⟩⟩, by decide,
    failed_step_skips_rest wSpawnFailAt1 wFsEmpty wPlan3 wOpts wRes3 1 wRes3Step1
      rfl rfl rfl ⟨rfl, Or.inr ⟨2, rfl, by decide⟩⟩ (by decide)⟩

/-! ## Claim C1 -/

/-- **C1** (code bug, evaluated at a failing input): when execution is a
logical failure (here: the only step exits 1), `runTask` does construct the
intended `MediaAgentTaskError` whose context carries the plan, raw plan,
debug info and full result — but that inner throw happens inside the `try`
block of the execute phase, so its own `catch` re-wraps it: the error that
actually escapes `runTask` has `plan` / `rawPlan` / `debug` in its context
and **no** `result` entry; the full result survives only on the nested
cause error. -/
theorem runTask_context_drops_result :
    thrownContextEntry (runTask wPlannerOk wSpawnFail0 wFsEmpty wRequest wRunOpts)
      "result" = none ∧
    thrownContextEntry (runTask wPlannerOk wSpawnFail0 wFsEmpty wRequest wRunOpts)
      "plan" = some (.plan wPlanFF) ∧
    thrownContextEntry (runTask wPlannerOk wSpawnFail0 wFsEmpty wRequest wRunOpts)
      "rawPlan" = some (.raw wPlanFF.toJValue) ∧
    thrownContextEntry (runTask wPlannerOk wSpawnFail0 wFsEmpty wRequest wRunOpts)
      "debug" = some .undef ∧
    (((runTaskError (runTask wPlannerOk wSpawnFail0 wFsEmpty wRequest wRunOpts)).bind
        ErrorValue.cause).bind fun inner => inner.context.lookup "result") =
      some (.result wResFail) :=
  ⟨rfl, rfl, rfl, rfl, rfl⟩

/-! ## Claim C2 -/

/-- **C2** counterexample: when the planner throws, the thrown
`MediaAgentTaskError` carries all three default phases (plan failed,
execute and summarize still pending), not exactly one entry. -/
theorem planner_error_phases_counterexample :
    (runTaskError (runTask (.error wPlannerErr) wSpawnOk wFsEmpty wRequest wRunOpts)).map
      (fun e => e.phases.length) = some 3 ∧ (3 : Nat) ≠ 1 :=
  ⟨rfl, by decide⟩

/-- **C2** (amended): when the planner throws, `runTask` throws a
`MediaAgentTaskError` with message "Plan phase failed" whose phases list
has three entries — `plan` failed and `execute` / `summarize` still pending
— and whose context has exactly the fields `rawPlan`, `debug` and
`responseText`, taken from the thrown error when present and `null` when
absent. -/
theorem planner_error_taskError
    (e : ErrorValue) (spawnOracle : Nat → Except String SpawnOutcome)
    (fsys : String → Option FileStat) (request : AgentRequest)
    (options : RunTaskOptions) :
    ∃ phs, runTask (.error e) spawnOracle fsys request options =
      .error (.task "Plan phase failed" phs (some e)
        [("rawPlan", match e.rawPlanField with
                     | some j => CtxValue.raw j
                     | none => CtxValue.null),
         ("debug", match e.debugField with
                   | some j => CtxValue.raw j
                   | none => CtxValue.null),
         ("responseText", match e.responseTextField with
                          | some t => CtxValue.text t
                          | none => CtxValue.null)]) ∧
      phs.map (fun p => (p.id, p.status)) =
        [("plan", .failed), ("execute", .pending), ("summarize", .pending)] :=
  ⟨_, rfl, rfl⟩

/-! ## Claim C8 -/

theorem createRevisionFileDescriptor_some (fsys : String → Option FileStat) (cwd : String)
    (source : JValue) (fallbackId : String) (seen : List String) (d : AgentFile)
    (h : createRevisionFileDescriptor fsys cwd source fallbackId seen = some d) :
    d.absolutePath ∉ seen ∧ ∃ st, fsys d.absolutePath = some st ∧ st.isFile = true := by
  unfold createRevisionFileDescriptor at h
  by_cases ht : ((source.getFieldD "absolutePath").asString).getD "" = ""
  · rw [if_pos ht] at h
    cases h
  · rw [if_neg ht] at h
    dsimp only at h
    by_cases hseen :
        resolvePath cwd (((source.getFieldD "absolutePath").asString).getD "") ∈ seen
    · rw [if_pos hseen] at h
      cases h
    · rw [if_neg hseen] at h
      cases hst : fsys (resolvePath cwd (((source.getFieldD "absolutePath").asString).getD ""))
        with
      | none =>
        rw [hst] at h
        cases h
      | some st =>
        rw [hst] at h
        dsimp only at h
        by_cases hfile : ¬ st.isFile = true
        · rw [if_pos hfile] at h
          cases h
        · rw [if_neg hfile] at h
          cases h
          refine ⟨hseen, st, hst, ?_⟩
          simpa using hfile

/-- Invariants of the uploaded-files loop: every produced descriptor is
backed by a regular file and has a path outside the incoming `seen` set;
the produced paths are distinct; and the final `seen` set is the incoming
one plus exactly the produced paths. -/
theorem collectUploadedFiles_spec (fsys : String → Option FileStat) (cwd : String) :
    ∀ (inputs : List JValue) (index : Nat) (seen : List String),
      (∀ d ∈ (collectUploadedFiles fsys cwd index inputs seen).1,
        d.absolutePath ∉ seen ∧ ∃ st, fsys d.absolutePath = some st ∧ st.isFile = true) ∧
      ((collectUploadedFiles fsys cwd index inputs seen).1.map
        (fun d => d.absolutePath)).Nodup ∧
      (∀ x, x ∈ (collectUploadedFiles fsys cwd index inputs seen).2 ↔
        x ∈ (collectUploadedFiles fsys cwd index inputs seen).1.map
          (fun d => d.absolutePath) ∨ x ∈ seen) := by
  intro inputs
  induction inputs with
  | nil =>
    intro index seen
    refine ⟨by simp [collectUploadedFiles], by simp [collectUploadedFiles], ?_⟩
    intro x
    simp [collectUploadedFiles]
  | cons source rest ih =>
    intro index seen
    simp only [collectUploadedFiles]
    cases hd : createRevisionFileDescriptor fsys cwd source s!"input-{index}" seen with
    | none =>
      rcases ih (index + 1) seen with ⟨ha, hb, hc⟩
      exact ⟨ha, hb, hc⟩
    | some d =>
      rcases createRevisionFileDescriptor_some fsys cwd source _ seen d hd with
        ⟨hdseen, hdex⟩
      rcases ih (index + 1) (d.absolutePath :: seen) with ⟨ha, hb, hc⟩
      dsimp only
      refine ⟨?_, ?_, ?_⟩
      · intro d' hd'
        rcases List.mem_cons.mp hd' with rfl | hd'
        · exact ⟨hdseen, hdex⟩
        · rcases ha d' hd' with ⟨hs, hx⟩
          exact ⟨fun hmem => hs (List.mem_cons_of_mem _ hmem), hx⟩
      · simp only [List.map_cons, List.nodup_cons]
        refine ⟨?_, hb⟩
        intro hmem
        rcases List.mem_map.mp hmem with ⟨d', hd', habs⟩
        exact (ha d' hd').1 (habs ▸ List.mem_cons_self _ _)
      · intro x
        rw [hc x]
        simp only [List.map_cons, List.mem_cons]
        constructor
        · rintro (h | h | h)
          · exact Or.inl (Or.inr h)
          · exact Or.inl (Or.inl h)
          · exact Or.inr h
        · rintro ((h | h) | h)
          · exact Or.inr (Or.inl h)
          · exact Or.inl h
          · exact Or.inr (Or.inr h)

/-- Invariants of the resolved-outputs loop. -/
theorem collectResolvedOutputs_spec (fsys : String → Option FileStat) (cwd : String) :
    ∀ (outputs : List JValue) (index : Nat) (seen : List String),
      (∀ d ∈ collectResolvedOutputs fsys cwd index outputs seen,
        d.absolutePath ∉ seen ∧ ∃ st, fsys d.absolutePath = some st ∧ st.isFile = true) ∧
      ((collectResolvedOutputs fsys cwd index outputs seen).map
        (fun d => d.absolutePath)).Nodup := by
  intro outputs
  induction outputs with
  | nil =>
    intro index seen
    exact ⟨by simp [collectResolvedOutputs], by simp [collectResolvedOutputs]⟩
  | cons output rest ih =>
    intro index seen
    simp only [collectResolvedOutputs]
    split
    · exact ih (index + 1) seen
    · cases hd : createRevisionFileDescriptor fsys cwd (outputSource index output)
          s!"output-{index}" seen with
      | none => exact ih (index + 1) seen
      | some d =>
        rcases createRevisionFileDescriptor_some fsys cwd _ _ seen d hd with
          ⟨hdseen, hdex⟩
        rcases ih (index + 1) (d.absolutePath :: seen) with ⟨ha, hb⟩
        refine ⟨?_, ?_⟩
        · intro d' hd'
          rcases List.mem_cons.mp hd' with rfl | hd'
          · exact ⟨hdseen, hdex⟩
          · rcases ha d' hd' with ⟨hs, hx⟩
            exact ⟨fun hmem => hs (List.mem_cons_of_mem _ hmem), hx⟩
        · simp only [List.map_cons, List.nodup_cons]
          refine ⟨?_, hb⟩
          intro hmem
          rcases List.mem_map.mp hmem with ⟨d', hd', habs⟩
          exact (ha d' hd').1 (habs ▸ List.mem_cons_self _ _)

/-- **C8**: the composed revision file list contains at most one descriptor
per resolved absolute path and no descriptor whose backing path is missing
or not a regular file; in the concrete record `c8Record`, whose uploaded
file and first resolved output share `"/data/a.png"`, the shared path
yields exactly one entry — the uploaded file's descriptor, since uploaded
files are considered first. -/
theorem prepareRevisionFiles_dedup
    (fsys : String → Option FileStat) (cwd : String) (baseRecord : JValue) :
    ((prepareRevisionFiles fsys cwd baseRecord).map (fun d => d.absolutePath)).Nodup ∧
    (∀ d ∈ prepareRevisionFiles fsys cwd baseRecord,
      ∃ st, fsys d.absolutePath = some st ∧ st.isFile = true) ∧
    prepareRevisionFiles c8Fs "/" c8Record =
      [{ id := "u1", originalName := "a.png", absolutePath := "/data/a.png",
         size := 10, mimeType := some "image/png" },
       { id := "output-1", originalName := "b.mp4", absolutePath := "/data/b.mp4",
         size := 20, mimeType := some "video/mp4" }] := by
  refine ⟨?_, ?_, by decide⟩
  · unfold prepareRevisionFiles
    dsimp only
    rcases collectUploadedFiles_spec fsys cwd
      (((baseRecord.getFieldD "uploadedFiles").asArray).getD []) 0 [] with ⟨_, hup, hseen⟩
    rcases collectResolvedOutputs_spec fsys cwd
      ((((baseRecord.getFieldD "result").getFieldD "resolvedOutputs").asArray).getD []) 0
      (collectUploadedFiles fsys cwd 0
        (((baseRecord.getFieldD "uploadedFiles").asArray).getD []) []).2 with ⟨hout, houtn⟩
    rw [List.map_append, List.nodup_append]
    refine ⟨hup, houtn, ?_⟩
    intro x hx hx'
    rcases List.mem_map.mp hx' with ⟨d', hd', habs⟩
    refine (hout d' hd').1 ?_
    rw [habs]
    exact (hseen x).mpr (Or.inl hx)
  · unfold prepareRevisionFiles
    dsimp only
    intro d hd
    rcases List.mem_append.mp hd with hd | hd
    · rcases collectUploadedFiles_spec fsys cwd
        (((baseRecord.getFieldD "uploadedFiles").asArray).getD []) 0 [] with ⟨hup, -, -⟩
      exact (hup d hd).2
    · rcases collectResolvedOutputs_spec fsys cwd
        ((((baseRecord.getFieldD "result").getFieldD "resolvedOutputs").asArray).getD []) 0
        (collectUploadedFiles fsys cwd 0
          (((baseRecord.getFieldD "uploadedFiles").asArray).getD []) []).2 with ⟨hout, -⟩
      exact (hout d hd).2

/-! ## Claim C9 -/

/-- Fuel-indexed invariants of the ancestry walk: the history length is
bounded by the remaining fuel, every collected id is new relative to the
incoming visited set, and the collected ids are pairwise distinct under
SameValueZero. -/
theorem collectRevisionHistoryAux_spec (store : JValue → Option JValue) :
    ∀ (fuel : Nat) (visited : List JValue) (current : JValue),
      (collectRevisionHistoryAux store fuel visited current).length ≤ fuel ∧
      (∀ r ∈ collectRevisionHistoryAux store fuel visited current,
        ∀ v ∈ visited, v.sameValueZero (r.getFieldD "id") = false) ∧
      ((collectRevisionHistoryAux store fuel visited current).map
        (fun r => r.getFieldD "id")).Pairwise
          (fun a b => a.sameValueZero b = false) := by
  intro fuel
  induction fuel with
  | zero =>
    intro visited current
    simp [collectRevisionHistoryAux]
  | succ fuel ih =>
    intro visited current
    simp only [collectRevisionHistoryAux]
    by_cases htruthy : ¬ current.jsTruthy
    · rw [if_pos htruthy]
      simp
    · rw [if_neg htruthy]
      by_cases hvis : visited.any (fun v => v.sameValueZero (current.getFieldD "id"))
      · rw [if_pos hvis]
        simp
      · rw [if_neg hvis]
        have hnotvis : ∀ v ∈ visited, v.sameValueZero (current.getFieldD "id") = false := by
          intro v hv
          by_contra hc
          exact hvis (List.any_eq_true.mpr ⟨v, hv, by simpa using hc⟩)
        have htail : (if ¬ (current.getFieldD "parentSessionId").jsTruthy then []
              else match store (current.getFieldD "parentSessionId") with
              | none => []
              | some parent => collectRevisionHistoryAux store fuel
                  (current.getFieldD "id" :: visited) parent) = [] ∨
            ∃ parent, (if ¬ (current.getFieldD "parentSessionId").jsTruthy then []
              else match store (current.getFieldD "parentSessionId") with
              | none => []
              | some parent => collectRevisionHistoryAux store fuel
                  (current.getFieldD "id" :: visited) parent) =
              collectRevisionHistoryAux store fuel
                (current.getFieldD "id" :: visited) parent := by
          by_cases hp : ¬ (current.getFieldD "parentSessionId").jsTruthy
          · rw [if_pos hp]
            exact Or.inl rfl
          · rw [if_neg hp]
            cases store (current.getFieldD "parentSessionId") with
            | none => exact Or.inl rfl
            | some parent => exact Or.inr ⟨parent, rfl⟩
        rcases htail with htail | ⟨parent, htail⟩
        · rw [htail]
          refine ⟨by simp, ?_, by simp⟩
          intro r hr v hv
          rcases List.mem_singleton.mp hr with rfl
          exact hnotvis v hv
        · rw [htail]
          rcases ih (current.getFieldD "id" :: visited) parent with ⟨ihlen, ihvis, ihpair⟩
          refine ⟨by simpa using ihlen, ?_, ?_⟩
          · intro r hr v hv
            rcases List.mem_cons.mp hr with rfl | hr
            · exact hnotvis v hv
            · exact ihvis r hr v (List.mem_cons_of_mem _ hv)
          · rw [List.map_cons, List.pairwise_cons]
            refine ⟨?_, ihpair⟩
            intro b hb
            rcases List.mem_map.mp hb with ⟨r, hr, rfl⟩
            exact ihvis r hr (current.getFieldD "id") (List.mem_cons_self _ _)

/-- **C9**: the revision-ancestry walk is a total function of the session
store (the loop counter bounds it even when `parentSessionId` links form a
cycle), returns at most 25 records, and no session id occurs twice in the
history: the collected ids are pairwise distinct under the SameValueZero
equality used by the `visited` set. -/
theorem collectRevisionHistory_bounded (store : JValue → Option JValue)
    (startRecord : JValue) :
    (collectRevisionHistory store startRecord).length ≤ 25 ∧
    ((collectRevisionHistory store startRecord).map
      (fun r => r.getFieldD "id")).Pairwise (fun a b => a.sameValueZero b = false) := by
  unfold collectRevisionHistory
  split
  · simp
  · rcases collectRevisionHistoryAux_spec store 25 [] startRecord with ⟨h1, -, h3⟩
    exact ⟨h1, h3⟩

/-! ## Claim C5 -/

/-- **C5**: the top-level `exitCode` and `timedOut` of every result returned
by `execute` equal the `exitCode` and `timedOut` of the most recently
executed step, and are `null` and `false` when no step executed; they are
not aggregates over all steps (a timeout stops the run, so the OR-shaped
`anyTimedOut` local equals the last executed step's flag). -/
theorem topLevel_reflects_last_executed
    (spawnOracle : Nat → Except String SpawnOutcome) (fsys : String → Option FileStat)
    (plan : CommandPlan) (options : ExecOptions) (res : CommandExecutionResult)
    (h : CommandExecutor.execute spawnOracle fsys plan options = .ok res) :
    match lastExecutedStep res.steps with
    | some r => res.exitCode = r.exitCode ∧ res.timedOut = r.timedOut
    | none => res.exitCode = none ∧ res.timedOut = false := by
  rcases (CommandExecutor.execute_ok_iff spawnOracle fsys plan options res).mp h with
    ⟨st, hst, rfl⟩
  have hgood : ∀ r ∈ st.stepResults, goodStepResult r := by
    refine CommandExecutor.runSteps_good spawnOracle (options.dryRun.getD false)
      plan.steps 0 CommandExecutor.initialState st hst ?_
    intro r hr
    simp [CommandExecutor.initialState] at hr
  have hid : CommandExecutor.applyRetroSkipReasons st.encounteredFailure st.stepResults =
      st.stepResults :=
    CommandExecutor.applyRetroSkipReasons_eq_self _ _
      (fun r hr hs => ((hgood r hr).1 hs).2.2.2.2)
  have hcons : loopStateConsistent st := by
    refine runSteps_consistent spawnOracle (options.dryRun.getD false)
      plan.steps 0 CommandExecutor.initialState st hst ?_
    constructor
    · simp [lastExecutedStep, CommandExecutor.initialState]
    · intro ht
      simp [CommandExecutor.initialState] at ht
  have h1 := hcons.1
  dsimp only
  rw [hid]
  cases hle : lastExecutedStep st.stepResults with
  | some r =>
    rw [hle] at h1
    exact ⟨h1.2.1, h1.2.2⟩
  | none =>
    rw [hle] at h1
    exact h1

/-- Witness for C5 at a concrete two-step run where both steps execute. -/
theorem topLevel_reflects_last_executed_witness :
    CommandExecutor.execute wSpawnOk wFsEmpty wPlanFF wOpts = .ok wResOk ∧
    match lastExecutedStep wResOk.steps with
    | some r => wResOk.exitCode = r.exitCode ∧ wResOk.timedOut = r.timedOut
    | none => wResOk.exitCode = none ∧ wResOk.timedOut = false :=
  ⟨rfl, topLevel_reflects_last_executed wSpawnOk wFsEmpty wPlanFF wOpts wResOk rfl⟩

/-! ## Claim C6 -/

/-- **C6**: the two-pass skip-reason algorithm of `execute` (main loop
followed by retroactively assigning `previous_step_failed` to skipped steps
lacking a reason) produces exactly the same result — in particular the same
per-step skip-reason assignment — as the single forward pass that tracks a
`failed_so_far` flag and assigns the reason at evaluation time. -/
theorem twoPass_eq_singleForwardPass
    (spawnOracle : Nat → Except String SpawnOutcome) (fsys : String → Option FileStat)
    (plan : CommandPlan) (options : ExecOptions) :
    CommandExecutor.execute spawnOracle fsys plan options =
      executeSingleForwardPass spawnOracle fsys plan options := by
  unfold CommandExecutor.execute executeSingleForwardPass
  dsimp only
  cases hrs : CommandExecutor.runSteps spawnOracle (options.dryRun.getD false) 0
      plan.steps CommandExecutor.initialState with
  | error e => rfl
  | ok st =>
    have hgood : ∀ r ∈ st.stepResults, r.status = .skipped → r.skipReason.isSome := by
      intro r hr hs
      refine (CommandExecutor.runSteps_good spawnOracle (options.dryRun.getD false)
        plan.steps 0 CommandExecutor.initialState st hrs ?_ r hr).1 hs |>.2.2.2.2
      intro r' hr'
      simp [CommandExecutor.initialState] at hr'
    dsimp only
    rw [CommandExecutor.applyRetroSkipReasons_eq_self _ _ hgood]

end MMW
